import Mathlib

/-!
# Verification of the beets-rym plugin core

A shallow embedding, in Lean 4, of the core algorithms of the `beets-rym`
repository (`beetsplug/rym_genres.py` and `beetsplug/rym_genre_hierarchy.py`):

* the string-similarity scorer `similarity` (Python `difflib.SequenceMatcher`
  over case-folded, Unicode-normalized strings),
* the artist/album name-variation generators,
* the catalog matcher `_find_rym_release`,
* the genre-hierarchy loader/parser and the hierarchical expansion,
* the parent-genre ("grouping") resolver `_get_parent_genres`.

Python strings are modelled as `List Char`; Python floats as `ℚ` (every value
produced by the embedded code is a ratio of small integers, where float
division is exact or the claims do not depend on rounding); Python sets as
`Finset`; Python dicts either as association lists or as total functions with
the dict's default value.

Unicode caveat, stated once: `str.lower` is modelled by `Char.toLower`
(they agree on ASCII, and every concrete string evaluated in this file is
ASCII); `unicodedata.normalize('NFKC', ·)` and `normalize('NFD', ·)` are
modelled as the identity (again exact on ASCII).  No theorem below depends on
the behaviour of these helpers outside ASCII: the universally quantified
theorems about `similarity` and the variation generators hold for *every*
function in these positions, as their proofs never unfold them on non-equal
arguments.
-/

/-- Python strings, modelled as lists of characters. -/
abbrev PyStr := List Char

/-- The set of characters stripped by Python `str.strip()` (ASCII whitespace;
the Unicode space characters also stripped by Python never occur in the
concrete inputs of this file). -/
def pyIsSpace (c : Char) : Bool :=
  c = ' ' || c = '\t' || c = '\n' || c = '\r' || c = (Char.ofNat 11) || c = (Char.ofNat 12)

/-- Python `str.strip()`: drop leading and trailing whitespace. -/
def pyStrip (s : PyStr) : PyStr :=
  (s.dropWhile pyIsSpace).reverse.dropWhile pyIsSpace |>.reverse

/-- Python `str.lower()`, modelled per character (exact on ASCII). -/
def pyLower (s : PyStr) : PyStr := s.map Char.toLower

/-- Modelled from the spec: `unicodedata.normalize('NFKC', s)` — canonical
composed Unicode normalization.  It is the identity on ASCII strings, which
covers every concrete string evaluated in this file. -/
def pyNFKC (s : PyStr) : PyStr := s

/-- Modelled from the spec: `unicodedata.normalize('NFD', s)` — decomposed
Unicode normalization, likewise the identity on ASCII strings. -/
def pyNFD (s : PyStr) : PyStr := s

/-!
## `difflib.SequenceMatcher` (CPython, `isjunk=None`, `autojunk=True`)

`similarity(a, b)` in `rym_genres.py` is
`SequenceMatcher(None, a_norm, b_norm).ratio()`.  The embedding below follows
CPython's `difflib` line by line:

* `__chain_b`: positions of every character of `b`, with the *popular*
  characters (only when `len(b) >= 200`: characters occurring more than
  `len(b) // 100 + 1` times) deleted from the index;
* `find_longest_match`: the `j2len` dynamic program over rows `alo..ahi-1`,
  keeping the first strictly-larger match, then the two junk-free extension
  loops.  The two junk extension loops of the source never fire because no
  junk predicate is supplied (`bjunk` is empty), so they are omitted;
* `get_matching_blocks` / `ratio`: the recursive split around the longest
  match; only the *sum* of the block sizes is needed by `ratio`, so the
  embedding computes that sum directly (the queue order and the
  adjacent-block merge of the source do not change the sum).
-/

/-- Positions (ascending) at which character `c` occurs, starting at index `i`. -/
def charPositionsFrom (c : Char) : Nat → List Char → List Nat
  | _, [] => []
  | i, x :: xs =>
    if x = c then i :: charPositionsFrom c (i + 1) xs else charPositionsFrom c (i + 1) xs

/-- Positions (ascending) at which character `c` occurs in `b`. -/
def charPositions (b : List Char) (c : Char) : List Nat := charPositionsFrom c 0 b

/-- Number of occurrences of `c` in `b`. -/
def charCount (b : List Char) (c : Char) : Nat := (b.filter (fun x => x = c)).length

/-- The autojunk test of `SequenceMatcher.__chain_b`: with `len(b) >= 200`,
characters occurring more than `len(b) // 100 + 1` times are "popular". -/
def isPopularChar (b : List Char) (c : Char) : Bool :=
  decide (200 ≤ b.length) && decide (b.length / 100 + 1 < charCount b c)

/-- `b2j[c]`: the (ascending) occurrence list of `c` in `b`, with popular
characters deleted. -/
def b2jList (b : List Char) (c : Char) : List Nat :=
  if isPopularChar b c then [] else charPositions b c

/-- The inner loop of `find_longest_match` over `b2j[a[i]]`: `j < blo` is
skipped, `j >= bhi` breaks, otherwise `k = j2len.get(j-1, 0) + 1` is recorded
in the new dict and the best triple is replaced when `k` is strictly larger.
`j2old` is the dict from the previous row (default `0`). -/
def innerLoop (j2old : Nat → Nat) (blo bhi i : Nat) :
    List Nat → (Nat → Nat) → Nat × Nat × Nat → (Nat → Nat) × (Nat × Nat × Nat)
  | [], acc, best => (acc, best)
  | j :: js, acc, best =>
    if j < blo then innerLoop j2old blo bhi i js acc best
    else if bhi ≤ j then (acc, best)
    else
      let k := (if j = 0 then 0 else j2old (j - 1)) + 1
      let acc' : Nat → Nat := fun x => if x = j then k else acc x
      let best' := if best.2.2 < k then (i + 1 - k, j + 1 - k, k) else best
      innerLoop j2old blo bhi i js acc' best'

/-- The row loop of `find_longest_match`: for each row `i`, run the inner
loop with a fresh `newj2len` dict, then continue with it. -/
def rowLoop (a b : List Char) (blo bhi : Nat) :
    List Nat → (Nat → Nat) → Nat × Nat × Nat → Nat × Nat × Nat
  | [], _, best => best
  | i :: is, j2len, best =>
    let p := innerLoop j2len blo bhi i (b2jList b (a.getD i (Char.ofNat 0))) (fun _ => 0) best
    rowLoop a b blo bhi is p.1 p.2

/-- The first (junk-free) extension loop of `find_longest_match`: grow the
match to the left while the characters before it are equal. -/
def extendLeft (a b : List Char) (alo blo : Nat) : Nat → Nat → Nat → Nat × Nat × Nat
  | 0, bj, k => (0, bj, k)
  | bi + 1, bj, k =>
    if alo < bi + 1 ∧ blo < bj ∧
        a.getD bi (Char.ofNat 0) = b.getD (bj - 1) (Char.ofNat 0) then
      extendLeft a b alo blo bi (bj - 1) (k + 1)
    else
      (bi + 1, bj, k)

/-- The loop equation of `extendLeft` (its `bi = 0` base case coincides with
the failing `alo < bi` test of the source's `while`). -/
theorem extendLeft_eq (a b : List Char) (alo blo bi bj k : Nat) :
    extendLeft a b alo blo bi bj k =
      if alo < bi ∧ blo < bj ∧
          a.getD (bi - 1) (Char.ofNat 0) = b.getD (bj - 1) (Char.ofNat 0) then
        extendLeft a b alo blo (bi - 1) (bj - 1) (k + 1)
      else
        (bi, bj, k) := by
  match bi with
  | 0 =>
    rw [if_neg (fun hcon => Nat.not_lt_zero alo hcon.1)]
    rfl
  | bi + 1 =>
    rw [extendLeft]
    simp

/-- The second (junk-free) extension loop of `find_longest_match`, fuelled by
`ahi - (bi + k)`, which decreases by exactly one per iteration. -/
def extendRightF (a b : List Char) (ahi bhi bi bj : Nat) : Nat → Nat → Nat
  | 0, k => k
  | fuel + 1, k =>
    if bi + k < ahi ∧ bj + k < bhi ∧
        a.getD (bi + k) (Char.ofNat 0) = b.getD (bj + k) (Char.ofNat 0) then
      extendRightF a b ahi bhi bi bj fuel (k + 1)
    else
      k

/-- The second extension loop: grow the match to the right while the
characters after it are equal. -/
def extendRight (a b : List Char) (ahi bhi : Nat) (bi bj : Nat) (k : Nat) : Nat :=
  extendRightF a b ahi bhi bi bj (ahi - (bi + k)) k

/-- The loop equation of `extendRight`: the fuel `ahi - (bi + k)` is exhausted
exactly when the `bi + k < ahi` test of the source's `while` fails. -/
theorem extendRight_eq (a b : List Char) (ahi bhi bi bj k : Nat) :
    extendRight a b ahi bhi bi bj k =
      if bi + k < ahi ∧ bj + k < bhi ∧
          a.getD (bi + k) (Char.ofNat 0) = b.getD (bj + k) (Char.ofNat 0) then
        extendRight a b ahi bhi bi bj (k + 1)
      else
        k := by
  rw [extendRight, extendRight]
  by_cases hlt : bi + k < ahi
  · obtain ⟨m, hm⟩ : ∃ m, ahi - (bi + k) = m + 1 := ⟨ahi - (bi + k) - 1, by omega⟩
    rw [hm, extendRightF]
    by_cases hc : bi + k < ahi ∧ bj + k < bhi ∧
        a.getD (bi + k) (Char.ofNat 0) = b.getD (bj + k) (Char.ofNat 0)
    · rw [if_pos hc, if_pos hc]
      have hmm : ahi - (bi + (k + 1)) = m := by omega
      rw [hmm]
    · rw [if_neg hc, if_neg hc]
  · have hz : ahi - (bi + k) = 0 := by omega
    rw [hz, extendRightF]
    rw [if_neg (fun hcon => hlt hcon.1)]

/-- `SequenceMatcher.find_longest_match(alo, ahi, blo, bhi)` on `a`, `b`
(the two junk extension loops of the source are no-ops: `bjunk` is empty). -/
def findLongestMatch (a b : List Char) (alo ahi blo bhi : Nat) : Nat × Nat × Nat :=
  let p := rowLoop a b blo bhi (List.range' alo (ahi - alo)) (fun _ => 0) (alo, blo, 0)
  let q := extendLeft a b alo blo p.1 p.2.1 p.2.2
  (q.1, q.2.1, extendRight a b ahi bhi q.1 q.2.1 q.2.2)

/-- Range discipline of a `find_longest_match` candidate triple `(i, j, k)`:
a zero-size candidate is the untouched initial `(alo, blo, 0)`, and a
positive one lies inside `[alo, ahi) × [blo, bhi)`. -/
def BestInv (alo ahi blo bhi : Nat) (t : Nat × Nat × Nat) : Prop :=
  (t.2.2 = 0 → t.1 = alo ∧ t.2.1 = blo) ∧
  (t.2.2 ≠ 0 → alo ≤ t.1 ∧ t.1 + t.2.2 ≤ ahi ∧ blo ≤ t.2.1 ∧ t.2.1 + t.2.2 ≤ bhi)

theorem innerLoop_inv (j2old : Nat → Nat) (alo ahi blo bhi i : Nat)
    (hi : i < ahi) (halo : alo ≤ i)
    (hold1 : ∀ j, j2old j ≤ j + 1 - blo)
    (hold2 : ∀ j, j2old j ≤ i - alo) :
    ∀ (js : List Nat) (acc : Nat → Nat) (best : Nat × Nat × Nat),
      (∀ j, acc j ≤ j + 1 - blo) → (∀ j, acc j ≤ i + 1 - alo) →
      BestInv alo ahi blo bhi best →
      (∀ j, (innerLoop j2old blo bhi i js acc best).1 j ≤ j + 1 - blo) ∧
      (∀ j, (innerLoop j2old blo bhi i js acc best).1 j ≤ i + 1 - alo) ∧
      BestInv alo ahi blo bhi (innerLoop j2old blo bhi i js acc best).2 := by
  intro js
  induction js with
  | nil => intro acc best h1 h2 hb; exact ⟨h1, h2, hb⟩
  | cons j js ih =>
    intro acc best h1 h2 hb
    by_cases hjlo : j < blo
    · simpa [innerLoop, hjlo] using ih acc best h1 h2 hb
    · by_cases hjhi : bhi ≤ j
      · simpa [innerLoop, hjlo, hjhi] using ⟨h1, h2, hb⟩
      · have hblo : blo ≤ j := Nat.le_of_not_lt hjlo
        have hjbhi : j < bhi := Nat.lt_of_not_le hjhi
        have hk1 : (if j = 0 then 0 else j2old (j - 1)) + 1 ≤ j + 1 - blo := by
          by_cases hj0 : j = 0
          · rw [if_pos hj0]; omega
          · have h := hold1 (j - 1)
            rw [if_neg hj0]; omega
        have hk2 : (if j = 0 then 0 else j2old (j - 1)) + 1 ≤ i + 1 - alo := by
          by_cases hj0 : j = 0
          · rw [if_pos hj0]; omega
          · have h := hold2 (j - 1)
            rw [if_neg hj0]; omega
        have hacc1 : ∀ x, (fun x => if x = j then (if j = 0 then 0 else j2old (j - 1)) + 1
            else acc x) x ≤ x + 1 - blo := by
          intro x
          by_cases hx : x = j
          · subst hx; simpa using hk1
          · simpa [hx] using h1 x
        have hacc2 : ∀ x, (fun x => if x = j then (if j = 0 then 0 else j2old (j - 1)) + 1
            else acc x) x ≤ i + 1 - alo := by
          intro x
          by_cases hx : x = j
          · subst hx; simpa using hk2
          · simpa [hx] using h2 x
        have hbest' : BestInv alo ahi blo bhi
            (if best.2.2 < (if j = 0 then 0 else j2old (j - 1)) + 1 then
              (i + 1 - ((if j = 0 then 0 else j2old (j - 1)) + 1),
               j + 1 - ((if j = 0 then 0 else j2old (j - 1)) + 1),
               (if j = 0 then 0 else j2old (j - 1)) + 1)
            else best) := by
          by_cases hlt : best.2.2 < (if j = 0 then 0 else j2old (j - 1)) + 1
          · rw [if_pos hlt]
            refine ⟨fun h0 => absurd h0 (by simp), fun _ => ⟨?_, ?_, ?_, ?_⟩⟩ <;>
              · simp only []
                omega
          · rw [if_neg hlt]; exact hb
        have hrest := ih (fun x => if x = j then (if j = 0 then 0 else j2old (j - 1)) + 1
            else acc x)
          (if best.2.2 < (if j = 0 then 0 else j2old (j - 1)) + 1 then
            (i + 1 - ((if j = 0 then 0 else j2old (j - 1)) + 1),
             j + 1 - ((if j = 0 then 0 else j2old (j - 1)) + 1),
             (if j = 0 then 0 else j2old (j - 1)) + 1)
          else best) hacc1 hacc2 hbest'
        simpa [innerLoop, hjlo, hjhi] using hrest

theorem rowLoop_inv (a b : List Char) (alo ahi blo bhi : Nat) :
    ∀ (m i0 : Nat) (j2len : Nat → Nat) (best : Nat × Nat × Nat),
      alo ≤ i0 → i0 + m ≤ ahi →
      (∀ j, j2len j ≤ j + 1 - blo) → (∀ j, j2len j ≤ i0 - alo) →
      BestInv alo ahi blo bhi best →
      BestInv alo ahi blo bhi (rowLoop a b blo bhi (List.range' i0 m) j2len best) := by
  intro m
  induction m with
  | zero => intro i0 j2len best _ _ _ _ hb; simpa [rowLoop] using hb
  | succ m ih =>
    intro i0 j2len best halo hm h1 h2 hb
    have hi : i0 < ahi := by omega
    have hinner := innerLoop_inv j2len alo ahi blo bhi i0 hi halo h1 h2
      (b2jList b (a.getD i0 (Char.ofNat 0))) (fun _ => 0) best
      (fun j => Nat.zero_le _) (fun j => Nat.zero_le _) hb
    have hrange : List.range' i0 (m + 1) = i0 :: List.range' (i0 + 1) m := List.range'_succ i0 m 1
    rw [hrange]
    show BestInv alo ahi blo bhi (rowLoop a b blo bhi (List.range' (i0 + 1) m) _ _)
    exact ih (i0 + 1) _ _ (by omega) (by omega) hinner.1
      (fun j => le_trans (hinner.2.1 j) (by omega)) hinner.2.2

theorem extendLeft_inv (a b : List Char) (alo blo : Nat) :
    ∀ bi bj k, alo ≤ bi → blo ≤ bj →
      alo ≤ (extendLeft a b alo blo bi bj k).1 ∧
      blo ≤ (extendLeft a b alo blo bi bj k).2.1 ∧
      (extendLeft a b alo blo bi bj k).1 + (extendLeft a b alo blo bi bj k).2.2 = bi + k ∧
      (extendLeft a b alo blo bi bj k).2.1 + (extendLeft a b alo blo bi bj k).2.2 = bj + k ∧
      k ≤ (extendLeft a b alo blo bi bj k).2.2 := by
  intro bi
  induction bi with
  | zero =>
    intro bj k h1 h2
    rw [extendLeft_eq]
    rw [if_neg (fun hcon => Nat.not_lt_zero alo hcon.1)]
    exact ⟨h1, h2, rfl, rfl, le_refl _⟩
  | succ bi ih =>
    intro bj k h1 h2
    rw [extendLeft_eq]
    by_cases h : alo < bi + 1 ∧ blo < bj ∧
        a.getD (bi + 1 - 1) (Char.ofNat 0) = b.getD (bj - 1) (Char.ofNat 0)
    · rw [if_pos h]
      have := ih (bj - 1) (k + 1) (by omega) (by omega)
      simp only [Nat.add_sub_cancel] at this ⊢
      refine ⟨this.1, this.2.1, by omega, by omega, by omega⟩
    · rw [if_neg h]
      exact ⟨h1, h2, rfl, rfl, le_refl _⟩

theorem extendRight_inv (a b : List Char) (ahi bhi bi bj : Nat) :
    ∀ k, k ≤ extendRight a b ahi bhi bi bj k ∧
      (extendRight a b ahi bhi bi bj k = k ∨
        (bi + extendRight a b ahi bhi bi bj k ≤ ahi ∧
         bj + extendRight a b ahi bhi bi bj k ≤ bhi)) := by
  intro k
  by_cases hs : bi + k < ahi
  · generalize hfuel : ahi - (bi + k) = fuel
    induction fuel generalizing k with
    | zero => omega
    | succ fuel ih =>
      rw [extendRight_eq]
      by_cases h : bi + k < ahi ∧ bj + k < bhi ∧
          a.getD (bi + k) (Char.ofNat 0) = b.getD (bj + k) (Char.ofNat 0)
      · rw [if_pos h]
        by_cases hs' : bi + (k + 1) < ahi
        · have := ih (k + 1) hs' (by omega)
          refine ⟨by omega, ?_⟩
          rcases this.2 with heq | hbnd
          · right; rw [heq]; omega
          · right; exact hbnd
        · have hstop : extendRight a b ahi bhi bi bj (k + 1) = k + 1 := by
            rw [extendRight_eq]; rw [if_neg (by omega)]
          refine ⟨by omega, Or.inr ?_⟩
          rw [hstop]; omega
      · rw [if_neg h]; exact ⟨le_refl _, Or.inl rfl⟩
  · have hstop : extendRight a b ahi bhi bi bj k = k := by
      rw [extendRight_eq]; rw [if_neg (by omega)]
    rw [hstop]; exact ⟨le_refl _, Or.inl rfl⟩

/-- Range discipline of `findLongestMatch`: a positive match lies inside the
queried window.  This justifies the recursion of the matching-block sum. -/
theorem findLongestMatch_bounds (a b : List Char) (alo ahi blo bhi : Nat) :
    (findLongestMatch a b alo ahi blo bhi).2.2 = 0 ∨
    (alo ≤ (findLongestMatch a b alo ahi blo bhi).1 ∧
     (findLongestMatch a b alo ahi blo bhi).1 + (findLongestMatch a b alo ahi blo bhi).2.2 ≤ ahi ∧
     blo ≤ (findLongestMatch a b alo ahi blo bhi).2.1 ∧
     (findLongestMatch a b alo ahi blo bhi).2.1 + (findLongestMatch a b alo ahi blo bhi).2.2 ≤ bhi) := by
  have hb0 : BestInv alo ahi blo bhi (alo, blo, (0 : Nat)) := by
    constructor
    · intro _; exact ⟨rfl, rfl⟩
    · intro h; exact absurd rfl h
  have hp : BestInv alo ahi blo bhi
      (rowLoop a b blo bhi (List.range' alo (ahi - alo)) (fun _ => 0) (alo, blo, 0)) := by
    by_cases hle : alo ≤ ahi
    · exact rowLoop_inv a b alo ahi blo bhi (ahi - alo) alo _ _ (le_refl _) (by omega)
        (fun j => Nat.zero_le _) (fun j => Nat.zero_le _) hb0
    · have : ahi - alo = 0 := by omega
      rw [this]
      simpa [rowLoop] using hb0
  set p := rowLoop a b blo bhi (List.range' alo (ahi - alo)) (fun _ => 0) (alo, blo, 0) with hpdef
  have hp1 : alo ≤ p.1 := by
    by_cases h0 : p.2.2 = 0
    · exact (hp.1 h0).1.ge
    · exact (hp.2 h0).1
  have hp2 : blo ≤ p.2.1 := by
    by_cases h0 : p.2.2 = 0
    · exact (hp.1 h0).2.ge
    · exact (hp.2 h0).2.2.1
  have hL := extendLeft_inv a b alo blo p.1 p.2.1 p.2.2 hp1 hp2
  set q := extendLeft a b alo blo p.1 p.2.1 p.2.2 with hqdef
  have hR := extendRight_inv a b ahi bhi q.1 q.2.1 q.2.2
  have hfl : findLongestMatch a b alo ahi blo bhi
      = (q.1, q.2.1, extendRight a b ahi bhi q.1 q.2.1 q.2.2) := rfl
  rw [hfl]
  dsimp only
  rcases hR.2 with heq | hbnd
  · by_cases h0 : p.2.2 = 0
    · have hpv := hp.1 h0
      have hstop : extendLeft a b alo blo p.1 p.2.1 p.2.2 = (p.1, p.2.1, p.2.2) := by
        rw [extendLeft_eq]
        exact if_neg fun hcon => absurd hcon.1 (by omega)
      have hq1 : q.1 = p.1 := by rw [hqdef, hstop]
      have hq2 : q.2.1 = p.2.1 := by rw [hqdef, hstop]
      have hq3 : q.2.2 = p.2.2 := by rw [hqdef, hstop]
      left; omega
    · have hbp := hp.2 h0
      right
      refine ⟨hL.1, ?_, hL.2.1, ?_⟩ <;> omega
  · right
    exact ⟨hL.1, hbnd.1, hL.2.1, hbnd.2⟩

/-- The sum of the sizes of all matching blocks found by
`SequenceMatcher.get_matching_blocks`: the longest match of the window, plus
(recursively) the matches of the two windows on either side of it.  This sum
is the `matches` value used by `ratio`; the order in which the source's queue
visits the windows, and its merge of adjacent blocks, do not change it. -/
def matchingTotalF (a b : List Char) : Nat → Nat → Nat → Nat → Nat → Nat
  | 0, _, _, _, _ => 0
  | fuel + 1, alo, ahi, blo, bhi =>
    if (findLongestMatch a b alo ahi blo bhi).2.2 = 0 then 0
    else
      (findLongestMatch a b alo ahi blo bhi).2.2
      + (if alo < (findLongestMatch a b alo ahi blo bhi).1 ∧
            blo < (findLongestMatch a b alo ahi blo bhi).2.1 then
          matchingTotalF a b fuel alo (findLongestMatch a b alo ahi blo bhi).1 blo
            (findLongestMatch a b alo ahi blo bhi).2.1
        else 0)
      + (if (findLongestMatch a b alo ahi blo bhi).1
              + (findLongestMatch a b alo ahi blo bhi).2.2 < ahi ∧
            (findLongestMatch a b alo ahi blo bhi).2.1
              + (findLongestMatch a b alo ahi blo bhi).2.2 < bhi then
          matchingTotalF a b fuel
            ((findLongestMatch a b alo ahi blo bhi).1
              + (findLongestMatch a b alo ahi blo bhi).2.2) ahi
            ((findLongestMatch a b alo ahi blo bhi).2.1
              + (findLongestMatch a b alo ahi blo bhi).2.2) bhi
        else 0)

/-- The fuel never matters once it covers the window measure
`(ahi - alo) + (bhi - blo)`, which `findLongestMatch_bounds` shows strictly
decreases at every recursive call: the fuelled recursion computes the same
value as the unbounded recursion of the source. -/
theorem matchingTotalF_stable (a b : List Char) :
    ∀ (fuel fuel' alo ahi blo bhi : Nat),
      ahi - alo + (bhi - blo) ≤ fuel → ahi - alo + (bhi - blo) ≤ fuel' →
      matchingTotalF a b fuel alo ahi blo bhi = matchingTotalF a b fuel' alo ahi blo bhi := by
  intro fuel
  induction fuel with
  | zero =>
    intro fuel' alo ahi blo bhi hf hf'
    match fuel' with
    | 0 => rfl
    | fuel' + 1 =>
      rw [matchingTotalF, matchingTotalF]
      rcases findLongestMatch_bounds a b alo ahi blo bhi with h0 | hbd
      · rw [if_pos h0]
      · by_cases hk : (findLongestMatch a b alo ahi blo bhi).2.2 = 0
        · rw [if_pos hk]
        · exfalso; omega
  | succ fuel ih =>
    intro fuel' alo ahi blo bhi hf hf'
    match fuel' with
    | 0 =>
      rw [matchingTotalF, matchingTotalF]
      rcases findLongestMatch_bounds a b alo ahi blo bhi with h0 | hbd
      · rw [if_pos h0]
      · by_cases hk : (findLongestMatch a b alo ahi blo bhi).2.2 = 0
        · rw [if_pos hk]
        · exfalso; omega
    | fuel' + 1 =>
      rw [matchingTotalF, matchingTotalF]
      by_cases hk : (findLongestMatch a b alo ahi blo bhi).2.2 = 0
      · rw [if_pos hk, if_pos hk]
      · rw [if_neg hk, if_neg hk]
        rcases findLongestMatch_bounds a b alo ahi blo bhi with h0 | hbd
        · exact absurd h0 hk
        · refine congrArg₂ _ (congrArg _ ?_) ?_
          · by_cases hc : alo < (findLongestMatch a b alo ahi blo bhi).1 ∧
                blo < (findLongestMatch a b alo ahi blo bhi).2.1
            · rw [if_pos hc, if_pos hc]
              exact ih fuel' alo _ blo _ (by omega) (by omega)
            · rw [if_neg hc, if_neg hc]
          · by_cases hc : (findLongestMatch a b alo ahi blo bhi).1
                  + (findLongestMatch a b alo ahi blo bhi).2.2 < ahi ∧
                (findLongestMatch a b alo ahi blo bhi).2.1
                  + (findLongestMatch a b alo ahi blo bhi).2.2 < bhi
            · rw [if_pos hc, if_pos hc]
              exact ih fuel' _ ahi _ bhi (by omega) (by omega)
            · rw [if_neg hc, if_neg hc]

/-- The sum of the sizes of all matching blocks found by
`SequenceMatcher.get_matching_blocks`: the longest match of the window, plus
(recursively) the matches of the two windows on either side of it.  This sum
is the `matches` value used by `ratio`; the order in which the source's queue
visits the windows, and its merge of adjacent blocks, do not change it.
(The recursion is fuelled by the window measure, which is sufficient by
`matchingTotalF_stable`.) -/
def matchingTotal (a b : List Char) (alo ahi blo bhi : Nat) : Nat :=
  matchingTotalF a b (ahi - alo + (bhi - blo)) alo ahi blo bhi

/-- The unbounded recursion equation of the matching-block sum. -/
theorem matchingTotal_eq (a b : List Char) (alo ahi blo bhi : Nat) :
    matchingTotal a b alo ahi blo bhi =
      if (findLongestMatch a b alo ahi blo bhi).2.2 = 0 then 0
      else
        (findLongestMatch a b alo ahi blo bhi).2.2
        + (if alo < (findLongestMatch a b alo ahi blo bhi).1 ∧
              blo < (findLongestMatch a b alo ahi blo bhi).2.1 then
            matchingTotal a b alo (findLongestMatch a b alo ahi blo bhi).1 blo
              (findLongestMatch a b alo ahi blo bhi).2.1
          else 0)
        + (if (findLongestMatch a b alo ahi blo bhi).1
                + (findLongestMatch a b alo ahi blo bhi).2.2 < ahi ∧
              (findLongestMatch a b alo ahi blo bhi).2.1
                + (findLongestMatch a b alo ahi blo bhi).2.2 < bhi then
            matchingTotal a b
              ((findLongestMatch a b alo ahi blo bhi).1
                + (findLongestMatch a b alo ahi blo bhi).2.2) ahi
              ((findLongestMatch a b alo ahi blo bhi).2.1
                + (findLongestMatch a b alo ahi blo bhi).2.2) bhi
          else 0) := by
  rw [matchingTotal]
  by_cases hz : ahi - alo + (bhi - blo) = 0
  · rw [hz]
    rcases findLongestMatch_bounds a b alo ahi blo bhi with h0 | hbd
    · rw [if_pos h0]; rfl
    · by_cases hk : (findLongestMatch a b alo ahi blo bhi).2.2 = 0
      · rw [if_pos hk]; rfl
      · exfalso; omega
  · obtain ⟨m, hm⟩ : ∃ m, ahi - alo + (bhi - blo) = m + 1 :=
      ⟨ahi - alo + (bhi - blo) - 1, by omega⟩
    rw [hm, matchingTotalF]
    by_cases hk : (findLongestMatch a b alo ahi blo bhi).2.2 = 0
    · rw [if_pos hk, if_pos hk]
    · rw [if_neg hk, if_neg hk]
      rcases findLongestMatch_bounds a b alo ahi blo bhi with h0 | hbd
      · exact absurd h0 hk
      · refine congrArg₂ _ (congrArg _ ?_) ?_
        · by_cases hc : alo < (findLongestMatch a b alo ahi blo bhi).1 ∧
              blo < (findLongestMatch a b alo ahi blo bhi).2.1
          · rw [if_pos hc, if_pos hc]
            exact matchingTotalF_stable a b m _ alo _ blo _ (by omega) (by omega)
          · rw [if_neg hc, if_neg hc]
        · by_cases hc : (findLongestMatch a b alo ahi blo bhi).1
                + (findLongestMatch a b alo ahi blo bhi).2.2 < ahi ∧
              (findLongestMatch a b alo ahi blo bhi).2.1
                + (findLongestMatch a b alo ahi blo bhi).2.2 < bhi
          · rw [if_pos hc, if_pos hc]
            exact matchingTotalF_stable a b m _ _ ahi _ bhi (by omega) (by omega)
          · rw [if_neg hc, if_neg hc]

/-- `SequenceMatcher.ratio()`: `2 * matches / (len(a) + len(b))`, and `1.0`
for two empty sequences (`_calculate_ratio`). -/
def ratioQ (a b : List Char) : ℚ :=
  if a.length + b.length = 0 then 1
  else 2 * (matchingTotal a b 0 a.length 0 b.length : ℚ) / (a.length + b.length)

/-- `similarity(a, b)` of `rym_genres.py`: case-fold, normalize (NFKC), then
the `SequenceMatcher` ratio. -/
def similarity (a b : PyStr) : ℚ :=
  ratioQ (pyNFKC (pyLower a)) (pyNFKC (pyLower b))

/-!
### Reflexivity of `ratioQ`

For `a = b = x` the dynamic program of `find_longest_match` only ever records
its best candidate on the diagonal (`besti = bestj`), because any off-diagonal
chain of matches is dominated by the diagonal chain of non-popular characters
(`diagRun`) through the very same positions.  The two extension loops then
stretch a diagonal candidate to the full string, so the top-level match is
`(0, 0, n)` and the ratio is `1`.
-/

/-- Length of the maximal suffix of non-popular characters of `x` ending at
position `i` — the value of the diagonal `j2len` chain of row `i` when
matching `x` against itself. -/
def diagRun (x : List Char) : Nat → Nat
  | 0 => if isPopularChar x (x.getD 0 (Char.ofNat 0)) then 0 else 1
  | i + 1 => if isPopularChar x (x.getD (i + 1) (Char.ofNat 0)) then 0 else diagRun x i + 1

theorem charPositionsFrom_mem (c : Char) :
    ∀ (xs : List Char) (s j : Nat), j ∈ charPositionsFrom c s xs →
      s ≤ j ∧ j - s < xs.length ∧ xs.getD (j - s) (Char.ofNat 0) = c := by
  intro xs
  induction xs with
  | nil => intro s j h; simp [charPositionsFrom] at h
  | cons y ys ih =>
    intro s j h
    rw [charPositionsFrom] at h
    by_cases hy : y = c
    · rw [if_pos hy] at h
      rcases List.mem_cons.mp h with rfl | h'
      · simpa using hy
      · have := ih (s + 1) j h'
        have hle : s + 1 ≤ j := this.1
        refine ⟨by omega, ?_, ?_⟩
        · simpa [List.length_cons] using by omega
        · have hsub : j - s = (j - (s + 1)) + 1 := by omega
          rw [hsub]
          simpa using this.2.2
    · rw [if_neg hy] at h
      have := ih (s + 1) j h
      have hle : s + 1 ≤ j := this.1
      refine ⟨by omega, by simp [List.length_cons]; omega, ?_⟩
      have hsub : j - s = (j - (s + 1)) + 1 := by omega
      rw [hsub]
      simpa using this.2.2

theorem charPositionsFrom_mem_intro (c : Char) :
    ∀ (xs : List Char) (s t : Nat), t < xs.length → xs.getD t (Char.ofNat 0) = c →
      s + t ∈ charPositionsFrom c s xs := by
  intro xs
  induction xs with
  | nil => intro s t h; simp at h
  | cons y ys ih =>
    intro s t ht hc
    rw [charPositionsFrom]
    match t with
    | 0 =>
      have hy : y = c := by simpa using hc
      rw [if_pos hy]
      simp
    | t' + 1 =>
      have hmem : (s + 1) + t' ∈ charPositionsFrom c (s + 1) ys := by
        refine ih (s + 1) t' (by simpa using Nat.lt_of_succ_lt_succ ht) ?_
        simpa using hc
      have harith : s + (t' + 1) = (s + 1) + t' := by omega
      by_cases hy : y = c
      · rw [if_pos hy]
        exact List.mem_cons.mpr (Or.inr (harith ▸ hmem))
      · rw [if_neg hy]
        exact harith ▸ hmem

theorem charPositionsFrom_sorted (c : Char) :
    ∀ (xs : List Char) (s : Nat), List.Pairwise (· < ·) (charPositionsFrom c s xs) := by
  intro xs
  induction xs with
  | nil => intro s; simp [charPositionsFrom]
  | cons y ys ih =>
    intro s
    rw [charPositionsFrom]
    by_cases hy : y = c
    · rw [if_pos hy]
      refine List.pairwise_cons.mpr ⟨?_, ih (s + 1)⟩
      intro j hj
      have := (charPositionsFrom_mem c ys (s + 1) j hj).1
      omega
    · rw [if_neg hy]
      exact ih (s + 1)

/-- A strictly sorted list splits around any of its members. -/
theorem sorted_split_at : ∀ (l : List Nat), List.Pairwise (· < ·) l →
    ∀ i ∈ l, ∃ A B, l = A ++ i :: B ∧ (∀ j ∈ A, j < i) ∧ (∀ j ∈ B, i < j) := by
  intro l
  induction l with
  | nil => intro _ i h; simp at h
  | cons y ys ih =>
    intro hp i hi
    rcases List.mem_cons.mp hi with rfl | hi'
    · exact ⟨[], ys, rfl, by simp, fun j hj => (List.pairwise_cons.mp hp).1 j hj⟩
    · rcases ih (List.pairwise_cons.mp hp).2 i hi' with ⟨A, B, hl, hA, hB⟩
      refine ⟨y :: A, B, by rw [hl]; rfl, ?_, hB⟩
      intro j hj
      rcases List.mem_cons.mp hj with rfl | hj'
      · exact (List.pairwise_cons.mp hp).1 i hi'
      · exact hA j hj'

/-- The inner loop distributes over append when nothing in the first part
triggers the `j >= bhi` break. -/
theorem innerLoop_append (j2old : Nat → Nat) (blo bhi i : Nat) :
    ∀ (l1 l2 : List Nat) (acc : Nat → Nat) (best : Nat × Nat × Nat),
      (∀ j ∈ l1, j < bhi) →
      innerLoop j2old blo bhi i (l1 ++ l2) acc best =
        innerLoop j2old blo bhi i l2 (innerLoop j2old blo bhi i l1 acc best).1
          (innerLoop j2old blo bhi i l1 acc best).2 := by
  intro l1
  induction l1 with
  | nil => intro l2 acc best _; rfl
  | cons j js ihl =>
    intro l2 acc best hbhi
    have hjbhi : ¬ bhi ≤ j := Nat.not_le.mpr (hbhi j (List.mem_cons_self j js))
    by_cases hjlo : j < blo
    · simp only [List.cons_append, innerLoop, if_pos hjlo]
      exact ihl l2 acc best (fun j' hj' => hbhi j' (List.mem_cons_of_mem j hj'))
    · simp only [List.cons_append, innerLoop, if_neg hjlo, if_neg hjbhi]
      exact ihl l2 _ _ (fun j' hj' => hbhi j' (List.mem_cons_of_mem j hj'))

theorem diagRun_of_nonpop (x : List Char) (i : Nat)
    (h : isPopularChar x (x.getD i (Char.ofNat 0)) = false) :
    diagRun x i = (if i = 0 then 0 else diagRun x (i - 1)) + 1 := by
  match i with
  | 0 =>
    rw [diagRun, if_neg (by simp only [h]; exact Bool.false_ne_true)]
    simp
  | i + 1 =>
    rw [diagRun, if_neg (by simp only [h]; exact Bool.false_ne_true)]
    simp

theorem diagRun_of_pop (x : List Char) (i : Nat)
    (h : isPopularChar x (x.getD i (Char.ofNat 0)) = true) :
    diagRun x i = 0 := by
  match i with
  | 0 => rw [diagRun, if_pos h]
  | i + 1 => rw [diagRun, if_pos h]

theorem innerPre (x : List Char) (j2old : Nat → Nat) (i : Nat)
    (hnp : isPopularChar x (x.getD i (Char.ofNat 0)) = false)
    (R1 : ∀ j, j2old j ≤ diagRun x j)
    (R2 : ∀ j, j2old j ≤ (if i = 0 then 0 else diagRun x (i - 1))) :
    ∀ (A : List Nat) (acc : Nat → Nat) (best : Nat × Nat × Nat),
      (∀ j ∈ A, j < i ∧ j < x.length ∧ x.getD j (Char.ofNat 0) = x.getD i (Char.ofNat 0)) →
      (∀ i', i' < i → diagRun x i' ≤ best.2.2) →
      (∀ j, acc j ≤ diagRun x j) →
      (∀ j, acc j ≤ diagRun x i) →
      (innerLoop j2old 0 x.length i A acc best).2 = best ∧
      (∀ j, (innerLoop j2old 0 x.length i A acc best).1 j ≤ diagRun x j) ∧
      (∀ j, (innerLoop j2old 0 x.length i A acc best).1 j ≤ diagRun x i) ∧
      (∀ j, i ≤ j → (innerLoop j2old 0 x.length i A acc best).1 j = acc j) := by
  intro A
  induction A with
  | nil => intro acc best _ _ h1 h2; exact ⟨rfl, h1, h2, fun _ _ => rfl⟩
  | cons j js ih =>
    intro acc best hA hbs h1 h2
    obtain ⟨hji, hjn, hjc⟩ := hA j (List.mem_cons_self j js)
    have hnpj : isPopularChar x (x.getD j (Char.ofNat 0)) = false := by rw [hjc]; exact hnp
    have hrunj : diagRun x j = (if j = 0 then 0 else diagRun x (j - 1)) + 1 :=
      diagRun_of_nonpop x j hnpj
    have hruni : diagRun x i = (if i = 0 then 0 else diagRun x (i - 1)) + 1 :=
      diagRun_of_nonpop x i hnp
    have hkj : (if j = 0 then 0 else j2old (j - 1)) + 1 ≤ diagRun x j := by
      by_cases hj0 : j = 0
      · rw [if_pos hj0, hrunj, if_pos hj0]
      · rw [if_neg hj0, hrunj, if_neg hj0]
        exact Nat.succ_le_succ (R1 (j - 1))
    have hki : (if j = 0 then 0 else j2old (j - 1)) + 1 ≤ diagRun x i := by
      rw [hruni]
      by_cases hj0 : j = 0
      · rw [if_pos hj0]; omega
      · rw [if_neg hj0]; exact Nat.succ_le_succ (R2 (j - 1))
    have hnoupd : ¬ best.2.2 < (if j = 0 then 0 else j2old (j - 1)) + 1 := by
      have := hbs j hji
      omega
    have hstep : innerLoop j2old 0 x.length i (j :: js) acc best =
        innerLoop j2old 0 x.length i js
          (fun y => if y = j then (if j = 0 then 0 else j2old (j - 1)) + 1 else acc y) best := by
      rw [innerLoop]
      simp only [if_neg (Nat.not_lt_zero j), if_neg (Nat.not_le.mpr hjn), if_neg hnoupd]
    rw [hstep]
    have hacc1 : ∀ y, (fun y => if y = j then (if j = 0 then 0 else j2old (j - 1)) + 1
        else acc y) y ≤ diagRun x y := by
      intro y
      by_cases hy : y = j
      · subst hy; simpa using hkj
      · simpa [hy] using h1 y
    have hacc2 : ∀ y, (fun y => if y = j then (if j = 0 then 0 else j2old (j - 1)) + 1
        else acc y) y ≤ diagRun x i := by
      intro y
      by_cases hy : y = j
      · subst hy; simpa using hki
      · simpa [hy] using h2 y
    have hres := ih _ best (fun j' hj' => hA j' (List.mem_cons_of_mem j hj')) hbs hacc1 hacc2
    refine ⟨hres.1, hres.2.1, hres.2.2.1, ?_⟩
    intro y hy
    rw [hres.2.2.2 y hy]
    have : ¬ y = j := by omega
    simp [this]

theorem innerPost (x : List Char) (j2old : Nat → Nat) (i : Nat)
    (hnp : isPopularChar x (x.getD i (Char.ofNat 0)) = false)
    (R1 : ∀ j, j2old j ≤ diagRun x j)
    (R2 : ∀ j, j2old j ≤ (if i = 0 then 0 else diagRun x (i - 1))) :
    ∀ (B : List Nat) (acc : Nat → Nat) (best : Nat × Nat × Nat),
      (∀ j ∈ B, i < j ∧ j < x.length ∧ x.getD j (Char.ofNat 0) = x.getD i (Char.ofNat 0)) →
      (diagRun x i ≤ best.2.2) →
      (∀ j, acc j ≤ diagRun x j) →
      (∀ j, acc j ≤ diagRun x i) →
      (innerLoop j2old 0 x.length i B acc best).2 = best ∧
      (∀ j, (innerLoop j2old 0 x.length i B acc best).1 j ≤ diagRun x j) ∧
      (∀ j, (innerLoop j2old 0 x.length i B acc best).1 j ≤ diagRun x i) ∧
      (∀ j, j ≤ i → (innerLoop j2old 0 x.length i B acc best).1 j = acc j) := by
  intro B
  induction B with
  | nil => intro acc best _ _ h1 h2; exact ⟨rfl, h1, h2, fun _ _ => rfl⟩
  | cons j js ih =>
    intro acc best hB hbs h1 h2
    obtain ⟨hij, hjn, hjc⟩ := hB j (List.mem_cons_self j js)
    have hnpj : isPopularChar x (x.getD j (Char.ofNat 0)) = false := by rw [hjc]; exact hnp
    have hrunj : diagRun x j = (if j = 0 then 0 else diagRun x (j - 1)) + 1 :=
      diagRun_of_nonpop x j hnpj
    have hruni : diagRun x i = (if i = 0 then 0 else diagRun x (i - 1)) + 1 :=
      diagRun_of_nonpop x i hnp
    have hj0 : ¬ j = 0 := by omega
    have hkj : (if j = 0 then 0 else j2old (j - 1)) + 1 ≤ diagRun x j := by
      rw [if_neg hj0, hrunj, if_neg hj0]
      exact Nat.succ_le_succ (R1 (j - 1))
    have hki : (if j = 0 then 0 else j2old (j - 1)) + 1 ≤ diagRun x i := by
      rw [if_neg hj0, hruni]
      exact Nat.succ_le_succ (R2 (j - 1))
    have hnoupd : ¬ best.2.2 < (if j = 0 then 0 else j2old (j - 1)) + 1 := by omega
    have hstep : innerLoop j2old 0 x.length i (j :: js) acc best =
        innerLoop j2old 0 x.length i js
          (fun y => if y = j then (if j = 0 then 0 else j2old (j - 1)) + 1 else acc y) best := by
      rw [innerLoop]
      simp only [if_neg (Nat.not_lt_zero j), if_neg (Nat.not_le.mpr hjn), if_neg hnoupd]
    rw [hstep]
    have hacc1 : ∀ y, (fun y => if y = j then (if j = 0 then 0 else j2old (j - 1)) + 1
        else acc y) y ≤ diagRun x y := by
      intro y
      by_cases hy : y = j
      · subst hy; simpa using hkj
      · simpa [hy] using h1 y
    have hacc2 : ∀ y, (fun y => if y = j then (if j = 0 then 0 else j2old (j - 1)) + 1
        else acc y) y ≤ diagRun x i := by
      intro y
      by_cases hy : y = j
      · subst hy; simpa using hki
      · simpa [hy] using h2 y
    have hres := ih _ best (fun j' hj' => hB j' (List.mem_cons_of_mem j hj')) hbs hacc1 hacc2
    refine ⟨hres.1, hres.2.1, hres.2.2.1, ?_⟩
    intro y hy
    rw [hres.2.2.2 y hy]
    have : ¬ y = j := by omega
    simp [this]

theorem innerRow_diag (x : List Char) (j2old : Nat → Nat) (i : Nat) (hi : i < x.length)
    (R1 : ∀ j, j2old j ≤ diagRun x j)
    (R2 : ∀ j, j2old j ≤ (if i = 0 then 0 else diagRun x (i - 1)))
    (R3 : i ≠ 0 → j2old (i - 1) = diagRun x (i - 1))
    (best : Nat × Nat × Nat)
    (hbd : best.1 = best.2.1)
    (hbs : ∀ i', i' < i → diagRun x i' ≤ best.2.2) :
    (∀ j, (innerLoop j2old 0 x.length i (b2jList x (x.getD i (Char.ofNat 0)))
        (fun _ => 0) best).1 j ≤ diagRun x j) ∧
    (∀ j, (innerLoop j2old 0 x.length i (b2jList x (x.getD i (Char.ofNat 0)))
        (fun _ => 0) best).1 j ≤ diagRun x i) ∧
    ((innerLoop j2old 0 x.length i (b2jList x (x.getD i (Char.ofNat 0)))
        (fun _ => 0) best).1 i = diagRun x i) ∧
    ((innerLoop j2old 0 x.length i (b2jList x (x.getD i (Char.ofNat 0)))
        (fun _ => 0) best).2.1
      = (innerLoop j2old 0 x.length i (b2jList x (x.getD i (Char.ofNat 0)))
        (fun _ => 0) best).2.2.1) ∧
    (∀ i', i' < i + 1 → diagRun x i'
      ≤ (innerLoop j2old 0 x.length i (b2jList x (x.getD i (Char.ofNat 0)))
        (fun _ => 0) best).2.2.2) := by
  by_cases hpop : isPopularChar x (x.getD i (Char.ofNat 0)) = true
  · have hempty : b2jList x (x.getD i (Char.ofNat 0)) = [] := by
      rw [b2jList, if_pos hpop]
    rw [hempty]
    have hrun0 : diagRun x i = 0 := diagRun_of_pop x i hpop
    refine ⟨fun j => Nat.zero_le _, fun j => Nat.zero_le _, by simpa using hrun0.symm, hbd, ?_⟩
    intro i' hi'
    by_cases hcase : i' < i
    · exact hbs i' hcase
    · have : i' = i := by omega
      rw [this, hrun0]
      exact Nat.zero_le _
  · have hnp : isPopularChar x (x.getD i (Char.ofNat 0)) = false := by
      simpa using hpop
    have hfull : b2jList x (x.getD i (Char.ofNat 0))
        = charPositions x (x.getD i (Char.ofNat 0)) := by
      rw [b2jList, if_neg (by simp only [hnp]; exact Bool.false_ne_true)]
    have himem : i ∈ charPositions x (x.getD i (Char.ofNat 0)) := by
      have := charPositionsFrom_mem_intro (x.getD i (Char.ofNat 0)) x 0 i hi rfl
      simpa [charPositions] using this
    have hsorted : List.Pairwise (· < ·) (charPositions x (x.getD i (Char.ofNat 0))) :=
      charPositionsFrom_sorted (x.getD i (Char.ofNat 0)) x 0
    obtain ⟨A, B, hl, hA, hB⟩ := sorted_split_at _ hsorted i himem
    have hmemfact : ∀ j ∈ charPositions x (x.getD i (Char.ofNat 0)),
        j < x.length ∧ x.getD j (Char.ofNat 0) = x.getD i (Char.ofNat 0) := by
      intro j hj
      have := charPositionsFrom_mem (x.getD i (Char.ofNat 0)) x 0 j hj
      simpa using this.2
    have hAfact : ∀ j ∈ A, j < i ∧ j < x.length ∧
        x.getD j (Char.ofNat 0) = x.getD i (Char.ofNat 0) := by
      intro j hj
      have hjmem : j ∈ charPositions x (x.getD i (Char.ofNat 0)) := by
        rw [hl]; exact List.mem_append.mpr (Or.inl hj)
      exact ⟨hA j hj, hmemfact j hjmem⟩
    have hBfact : ∀ j ∈ B, i < j ∧ j < x.length ∧
        x.getD j (Char.ofNat 0) = x.getD i (Char.ofNat 0) := by
      intro j hj
      have hjmem : j ∈ charPositions x (x.getD i (Char.ofNat 0)) := by
        rw [hl]
        exact List.mem_append.mpr (Or.inr (List.mem_cons_of_mem i hj))
      exact ⟨hB j hj, hmemfact j hjmem⟩
    rw [hfull, hl]
    rw [innerLoop_append j2old 0 x.length i A (i :: B) (fun _ => 0) best
      (fun j hj => (hAfact j hj).2.1)]
    have hpre := innerPre x j2old i hnp R1 R2 A (fun _ => 0) best hAfact hbs
      (fun j => Nat.zero_le _) (fun j => Nat.zero_le _)
    set accA := (innerLoop j2old 0 x.length i A (fun _ => 0) best).1 with haccA
    rw [hpre.1]
    have hk : (if i = 0 then 0 else j2old (i - 1)) + 1 = diagRun x i := by
      rw [diagRun_of_nonpop x i hnp]
      by_cases hi0 : i = 0
      · rw [if_pos hi0, if_pos hi0]
      · rw [if_neg hi0, if_neg hi0, R3 hi0]
    have hstep : innerLoop j2old 0 x.length i (i :: B) accA best =
        innerLoop j2old 0 x.length i B
          (fun y => if y = i then (if i = 0 then 0 else j2old (i - 1)) + 1 else accA y)
          (if best.2.2 < (if i = 0 then 0 else j2old (i - 1)) + 1 then
            (i + 1 - ((if i = 0 then 0 else j2old (i - 1)) + 1),
             i + 1 - ((if i = 0 then 0 else j2old (i - 1)) + 1),
             (if i = 0 then 0 else j2old (i - 1)) + 1)
          else best) := by
      rw [innerLoop]
      simp only [if_neg (Nat.not_lt_zero i), if_neg (Nat.not_le.mpr hi)]
    rw [hstep]
    have hacc1 : ∀ y, (fun y => if y = i then (if i = 0 then 0 else j2old (i - 1)) + 1
        else accA y) y ≤ diagRun x y := by
      intro y
      by_cases hy : y = i
      · subst hy; simpa using le_of_eq hk
      · simpa [hy] using hpre.2.1 y
    have hacc2 : ∀ y, (fun y => if y = i then (if i = 0 then 0 else j2old (i - 1)) + 1
        else accA y) y ≤ diagRun x i := by
      intro y
      by_cases hy : y = i
      · subst hy; simpa using le_of_eq hk
      · simpa [hy] using hpre.2.2.1 y
    have hbest1run : diagRun x i ≤ (if best.2.2 < (if i = 0 then 0 else j2old (i - 1)) + 1 then
        (i + 1 - ((if i = 0 then 0 else j2old (i - 1)) + 1),
         i + 1 - ((if i = 0 then 0 else j2old (i - 1)) + 1),
         (if i = 0 then 0 else j2old (i - 1)) + 1)
      else best).2.2 := by
      by_cases hupd : best.2.2 < (if i = 0 then 0 else j2old (i - 1)) + 1
      · rw [if_pos hupd]; exact le_of_eq hk.symm
      · rw [if_neg hupd]; omega
    have hpost := innerPost x j2old i hnp R1 R2 B _ _ hBfact hbest1run hacc1 hacc2
    refine ⟨hpost.2.1, hpost.2.2.1, ?_, ?_, ?_⟩
    · rw [hpost.2.2.2 i (le_refl i)]
      simpa using hk
    · rw [hpost.1]
      by_cases hupd : best.2.2 < (if i = 0 then 0 else j2old (i - 1)) + 1
      · rw [if_pos hupd]
      · rw [if_neg hupd]; exact hbd
    · intro i' hi'
      rw [hpost.1]
      by_cases hcase : i' < i
      · by_cases hupd : best.2.2 < (if i = 0 then 0 else j2old (i - 1)) + 1
        · rw [if_pos hupd]
          have := hbs i' hcase
          simp only
          omega
        · rw [if_neg hupd]; exact hbs i' hcase
      · have hieq : i' = i := by omega
        rw [hieq]
        exact hbest1run

theorem rowLoop_diag (x : List Char) :
    ∀ (m i0 : Nat) (j2len : Nat → Nat) (best : Nat × Nat × Nat),
      i0 + m = x.length →
      (∀ j, j2len j ≤ diagRun x j) →
      (∀ j, j2len j ≤ (if i0 = 0 then 0 else diagRun x (i0 - 1))) →
      (i0 ≠ 0 → j2len (i0 - 1) = diagRun x (i0 - 1)) →
      best.1 = best.2.1 →
      (∀ i', i' < i0 → diagRun x i' ≤ best.2.2) →
      (rowLoop x x 0 x.length (List.range' i0 m) j2len best).1
        = (rowLoop x x 0 x.length (List.range' i0 m) j2len best).2.1 := by
  intro m
  induction m with
  | zero => intro i0 j2len best _ _ _ _ hbd _; simpa [rowLoop] using hbd
  | succ m ih =>
    intro i0 j2len best hsum R1 R2 R3 hbd hbs
    have hi0 : i0 < x.length := by omega
    have hrow := innerRow_diag x j2len i0 hi0 R1 R2 R3 best hbd hbs
    rw [List.range'_succ]
    show (rowLoop x x 0 x.length (List.range' (i0 + 1) m)
      (innerLoop j2len 0 x.length i0 (b2jList x (x.getD i0 (Char.ofNat 0))) (fun _ => 0) best).1
      (innerLoop j2len 0 x.length i0 (b2jList x (x.getD i0 (Char.ofNat 0)))
        (fun _ => 0) best).2).1 = _
    refine ih (i0 + 1) _ _ (by omega) hrow.1 ?_ ?_ hrow.2.2.2.1 hrow.2.2.2.2
    · intro j
      simpa using hrow.2.1 j
    · intro _
      simpa using hrow.2.2.1

theorem extendLeft_diag (x : List Char) :
    ∀ (bi k : Nat), extendLeft x x 0 0 bi bi k = (0, 0, bi + k) := by
  intro bi
  induction bi with
  | zero =>
    intro k
    rw [extendLeft_eq, if_neg (fun hcon => Nat.not_lt_zero 0 hcon.1)]
    simp
  | succ bi ihb =>
    intro k
    rw [extendLeft_eq, if_pos ⟨Nat.succ_pos bi, Nat.succ_pos bi, rfl⟩]
    simp only [Nat.add_sub_cancel]
    rw [ihb (k + 1)]
    refine congrArg _ (congrArg _ ?_)
    omega

theorem extendRight_self (x : List Char) :
    ∀ (fuel s : Nat), s ≤ x.length → x.length - s = fuel →
      extendRight x x x.length x.length 0 0 s = x.length := by
  intro fuel
  induction fuel with
  | zero =>
    intro s hs hf
    have hsn : s = x.length := by omega
    rw [extendRight_eq, if_neg (fun hcon => by omega)]
    exact hsn
  | succ fuel ihf =>
    intro s hs hf
    have hlt : s < x.length := by omega
    rw [extendRight_eq, if_pos ⟨by omega, by omega, rfl⟩]
    exact ihf (s + 1) (by omega) (by omega)

/-- When `a = b = x`, `find_longest_match` over the whole window returns the
full diagonal `(0, 0, |x|)`: the dynamic program's best candidate is always
diagonal, and the extension loops stretch it to the whole string. -/
theorem findLongestMatch_self (x : List Char) :
    findLongestMatch x x 0 x.length 0 x.length = (0, 0, x.length) := by
  have hb0 : BestInv 0 x.length 0 x.length (0, 0, (0 : Nat)) := by
    constructor
    · intro _; exact ⟨rfl, rfl⟩
    · intro h; exact absurd rfl h
  have hdiag := rowLoop_diag x (x.length - 0) 0 (fun _ => 0) (0, 0, 0) (by omega)
    (fun j => Nat.zero_le _) (fun j => Nat.zero_le _) (fun h => absurd rfl h) rfl
    (fun i' hi' => absurd hi' (Nat.not_lt_zero i'))
  have hinv := rowLoop_inv x x 0 x.length 0 x.length (x.length - 0) 0 (fun _ => 0) (0, 0, 0)
    (le_refl 0) (by omega) (fun j => Nat.zero_le _) (fun j => Nat.zero_le _) hb0
  set p := rowLoop x x 0 x.length (List.range' 0 (x.length - 0)) (fun _ => 0) (0, 0, 0)
    with hpdef
  have hsum : p.1 + p.2.2 ≤ x.length := by
    by_cases h0 : p.2.2 = 0
    · have := hinv.1 h0
      omega
    · exact (hinv.2 h0).2.1
  have hfl : findLongestMatch x x 0 x.length 0 x.length
      = (let q := extendLeft x x 0 0 p.1 p.2.1 p.2.2;
         (q.1, q.2.1, extendRight x x x.length x.length q.1 q.2.1 q.2.2)) := rfl
  rw [hfl]
  have hq : extendLeft x x 0 0 p.1 p.2.1 p.2.2 = (0, 0, p.1 + p.2.2) := by
    have hd : p.2.1 = p.1 := hdiag.symm
    rw [hd]
    exact extendLeft_diag x p.1 p.2.2
  simp only [hq]
  have hr : extendRight x x x.length x.length 0 0 (p.1 + p.2.2) = x.length :=
    extendRight_self x (x.length - (p.1 + p.2.2)) (p.1 + p.2.2) hsum rfl
  rw [hr]

/-- `SequenceMatcher` is reflexive: matching any string against itself yields
a full-length match total, hence ratio `1` — autojunk notwithstanding. -/
theorem ratioQ_self (x : List Char) : ratioQ x x = 1 := by
  by_cases h0 : x.length = 0
  · rw [ratioQ, if_pos (by omega)]
  · rw [ratioQ, if_neg (by omega)]
    have hm : matchingTotal x x 0 x.length 0 x.length = x.length := by
      rw [matchingTotal_eq]
      rw [if_neg (by rw [findLongestMatch_self]; simpa using h0)]
      rw [if_neg (by rw [findLongestMatch_self]; simp)]
      rw [if_neg (by rw [findLongestMatch_self]; simp)]
      rw [findLongestMatch_self]
      simp
    rw [hm]
    rw [div_eq_one_iff_eq (by exact_mod_cast by omega : ((x.length : ℚ) + x.length) ≠ 0)]
    ring

theorem matchingTotal_le (a b : List Char) :
    ∀ (N alo ahi blo bhi : Nat), ahi - alo + (bhi - blo) ≤ N →
      matchingTotal a b alo ahi blo bhi ≤ min (ahi - alo) (bhi - blo) := by
  intro N
  induction N with
  | zero =>
    intro alo ahi blo bhi hN
    rw [matchingTotal_eq]
    by_cases hk : (findLongestMatch a b alo ahi blo bhi).2.2 = 0
    · rw [if_pos hk]; exact Nat.zero_le _
    · rw [if_neg hk]
      rcases findLongestMatch_bounds a b alo ahi blo bhi with h0 | hbd
      · exact absurd h0 hk
      · exfalso; omega
  | succ N ihN =>
    intro alo ahi blo bhi hN
    rw [matchingTotal_eq]
    by_cases hk : (findLongestMatch a b alo ahi blo bhi).2.2 = 0
    · rw [if_pos hk]; exact Nat.zero_le _
    · rw [if_neg hk]
      rcases findLongestMatch_bounds a b alo ahi blo bhi with h0 | hbd
      · exact absurd h0 hk
      · have hL : (if alo < (findLongestMatch a b alo ahi blo bhi).1 ∧
              blo < (findLongestMatch a b alo ahi blo bhi).2.1 then
            matchingTotal a b alo (findLongestMatch a b alo ahi blo bhi).1 blo
              (findLongestMatch a b alo ahi blo bhi).2.1
          else 0) ≤ min ((findLongestMatch a b alo ahi blo bhi).1 - alo)
              ((findLongestMatch a b alo ahi blo bhi).2.1 - blo) := by
          by_cases hc : alo < (findLongestMatch a b alo ahi blo bhi).1 ∧
              blo < (findLongestMatch a b alo ahi blo bhi).2.1
          · rw [if_pos hc]
            exact ihN alo _ blo _ (by omega)
          · rw [if_neg hc]; exact Nat.zero_le _
        have hR : (if (findLongestMatch a b alo ahi blo bhi).1
                + (findLongestMatch a b alo ahi blo bhi).2.2 < ahi ∧
              (findLongestMatch a b alo ahi blo bhi).2.1
                + (findLongestMatch a b alo ahi blo bhi).2.2 < bhi then
            matchingTotal a b
              ((findLongestMatch a b alo ahi blo bhi).1
                + (findLongestMatch a b alo ahi blo bhi).2.2) ahi
              ((findLongestMatch a b alo ahi blo bhi).2.1
                + (findLongestMatch a b alo ahi blo bhi).2.2) bhi
          else 0) ≤ min (ahi - ((findLongestMatch a b alo ahi blo bhi).1
                + (findLongestMatch a b alo ahi blo bhi).2.2))
              (bhi - ((findLongestMatch a b alo ahi blo bhi).2.1
                + (findLongestMatch a b alo ahi blo bhi).2.2)) := by
          by_cases hc : (findLongestMatch a b alo ahi blo bhi).1
                + (findLongestMatch a b alo ahi blo bhi).2.2 < ahi ∧
              (findLongestMatch a b alo ahi blo bhi).2.1
                + (findLongestMatch a b alo ahi blo bhi).2.2 < bhi
          · rw [if_pos hc]
            exact ihN _ ahi _ bhi (by omega)
          · rw [if_neg hc]; exact Nat.zero_le _
        omega

theorem ratioQ_nonneg (a b : List Char) : 0 ≤ ratioQ a b := by
  rw [ratioQ]
  by_cases h0 : a.length + b.length = 0
  · rw [if_pos h0]; norm_num
  · rw [if_neg h0]
    apply div_nonneg
    · positivity
    · positivity

theorem ratioQ_le_one (a b : List Char) : ratioQ a b ≤ 1 := by
  rw [ratioQ]
  by_cases h0 : a.length + b.length = 0
  · rw [if_pos h0]
  · rw [if_neg h0]
    have hm := matchingTotal_le a b (a.length + b.length) 0 a.length 0 b.length (by omega)
    have hm2 : 2 * matchingTotal a b 0 a.length 0 b.length ≤ a.length + b.length := by omega
    have hpos : (0 : ℚ) < (a.length : ℚ) + b.length := by
      have := Nat.pos_of_ne_zero h0
      exact_mod_cast this
    rw [div_le_one hpos]
    calc 2 * (matchingTotal a b 0 a.length 0 b.length : ℚ)
        = ((2 * matchingTotal a b 0 a.length 0 b.length : Nat) : ℚ) := by push_cast; ring
      _ ≤ ((a.length + b.length : Nat) : ℚ) := by exact_mod_cast hm2
      _ = (a.length : ℚ) + b.length := by push_cast; ring

/-- Evaluation helper: the value of `similarity` from the (kernel-computable)
matching total and the two normalized lengths. -/
theorem similarity_eval (a b : List Char) (m la lb : Nat)
    (hm : matchingTotalF (pyNFKC (pyLower a)) (pyNFKC (pyLower b))
        ((pyNFKC (pyLower a)).length - 0 + ((pyNFKC (pyLower b)).length - 0)) 0
        (pyNFKC (pyLower a)).length 0 (pyNFKC (pyLower b)).length = m)
    (hla : (pyNFKC (pyLower a)).length = la)
    (hlb : (pyNFKC (pyLower b)).length = lb)
    (h0 : ¬ (la + lb = 0)) :
    similarity a b = 2 * (m : ℚ) / (la + lb) := by
  rw [similarity, ratioQ, matchingTotal, hm, hla, hlb, if_neg h0]

/-- The concrete pair of strings witnessing the asymmetry of `similarity`:
`find_longest_match` keeps the *first* best-size candidate in row order of its
first argument, a tie-break that is not symmetric in the two strings. -/
def simAsymA : PyStr := ['a', 'b']

def simAsymB : PyStr := ['b', 'a', 'c', 'b']

/-- C5, counterexample: the claim asserts `Similarity` is symmetric for all
strings, but `Similarity("ab", "bacb") = 2/3` while
`Similarity("bacb", "ab") = 1/3`: the longest-match tie-break of
`SequenceMatcher` keeps the match `"a"` in the first direction (which later
extends by a second block) and the match `"b"` in the other. -/
theorem c5_similarity_not_symmetric :
    similarity simAsymA simAsymB = 2 / 3 ∧ similarity simAsymB simAsymA = 1 / 3 ∧
    ¬ similarity simAsymA simAsymB = similarity simAsymB simAsymA := by
  have h1 : similarity simAsymA simAsymB = 2 * (2 : ℚ) / (2 + 4) :=
    similarity_eval _ _ 2 2 4 (by decide) (by decide) (by decide) (by decide)
  have h2 : similarity simAsymB simAsymA = 2 * (1 : ℚ) / (4 + 2) :=
    similarity_eval _ _ 1 4 2 (by decide) (by decide) (by decide) (by decide)
  refine ⟨by rw [h1]; norm_num, by rw [h2]; norm_num, by rw [h1, h2]; norm_num⟩

/-- C5, amended: `Similarity(a, a) = 1.0` for every string `a`, and
`Similarity(a, b)` always lies in `[0, 1]`; but `Similarity` is *not*
symmetric in general (see the counterexample), because
`SequenceMatcher.find_longest_match` breaks ties between equal-length matches
by position in a way that depends on the argument order. -/
theorem c5_similarity_reflexive_bounded :
    (∀ a : PyStr, similarity a a = 1) ∧
    (∀ a b : PyStr, 0 ≤ similarity a b ∧ similarity a b ≤ 1) :=
  ⟨fun _ => ratioQ_self _, fun a b => ⟨ratioQ_nonneg _ _, ratioQ_le_one _ _⟩⟩

/-!
## Name-variation generation (`_get_artist_variations`, `_get_album_variations`)

The regular-expression operations of the source are embedded operationally,
with Python's leftmost-match `re.sub` scan made explicit.  In the patterns
`\s*\[.*?\]\s*` and `\s*\(.*?\)\s*` the lazy `.*?` matches up to the first
closing delimiter and cannot cross a newline; in `\s*\([^)]*\)\s*` and
`\s*\[[^\]]*\]\s*` the complemented class admits newlines.  `\w` and `\d` are
modelled by their ASCII parts (exact on the ASCII inputs of this file).
-/

/-- `\w` (ASCII part): letters, digits, underscore. -/
def pyIsWordChar (c : Char) : Bool := c.isAlphanum || c = '_'

/-- Scan the content of a bracketed group up to the closing delimiter `clc`;
`contentOk` tells which characters the pattern's content may match.  On
success, return the input remaining after the group and its trailing
whitespace. -/
def matchClose (clc : Char) (contentOk : Char → Bool) : PyStr → Option PyStr
  | [] => none
  | c :: rest =>
    if c = clc then some (rest.dropWhile pyIsSpace)
    else if contentOk c then matchClose clc contentOk rest
    else none

/-- Try to match `\s* opc content clc \s*` at the head of `s`. -/
def matchEnclosed (opc clc : Char) (contentOk : Char → Bool) (s : PyStr) : Option PyStr :=
  match s.dropWhile pyIsSpace with
  | c :: rest => if c = opc then matchClose clc contentOk rest else none
  | [] => none

/-- The `re.sub(r'\s* opc … clc \s*', '', s)` scan: at each position try the
pattern; on a match, drop it and continue after it, otherwise keep the
character.  Fuelled by the string length (each step consumes at least one
character). -/
def subEnclosedGo (opc clc : Char) (contentOk : Char → Bool) : Nat → PyStr → PyStr
  | 0, s => s
  | _ + 1, [] => []
  | fuel + 1, c :: rest =>
    match matchEnclosed opc clc contentOk (c :: rest) with
    | some rest' => subEnclosedGo opc clc contentOk fuel rest'
    | none => c :: subEnclosedGo opc clc contentOk fuel rest

def subEnclosed (opc clc : Char) (contentOk : Char → Bool) (s : PyStr) : PyStr :=
  subEnclosedGo opc clc contentOk s.length s

/-- Scan the content of the first group of `re.search(r'opc (…) clc', s)`. -/
def grabContent (clc : Char) (contentOk : Char → Bool) : PyStr → PyStr → Option PyStr
  | [], _ => none
  | c :: rest, acc =>
    if c = clc then some acc.reverse
    else if contentOk c then grabContent clc contentOk rest (c :: acc)
    else none

/-- `re.search(r'opc (…) clc', s)`: the first position where the group
matches; positions whose group cannot be closed are skipped. -/
def searchEnclosed (opc clc : Char) (contentOk : Char → Bool) : PyStr → Option PyStr
  | [] => none
  | c :: rest =>
    if c = opc then
      match grabContent clc contentOk rest [] with
      | some content => some content
      | none => searchEnclosed opc clc contentOk rest
    else searchEnclosed opc clc contentOk rest

/-- `re.sub(r'፡', ':', s)`: the Ethiopian wordspace (U+1361) to a colon. -/
def subEthiopicColon (s : PyStr) : PyStr :=
  s.map (fun c => if c = Char.ofNat 4961 then ':' else c)

/-- Try to match `\s*:\s*` at the head of `s`. -/
def matchColonRun (s : PyStr) : Option PyStr :=
  match s.dropWhile pyIsSpace with
  | c :: rest => if c = ':' then some (rest.dropWhile pyIsSpace) else none
  | [] => none

/-- `re.sub(r'\s*:\s*', ': ', s)`, fuelled like `subEnclosedGo`. -/
def subColonSpaceGo : Nat → PyStr → PyStr
  | 0, s => s
  | _ + 1, [] => []
  | fuel + 1, c :: rest =>
    match matchColonRun (c :: rest) with
    | some rest' => ':' :: ' ' :: subColonSpaceGo fuel rest'
    | none => c :: subColonSpaceGo fuel rest

def subColonSpace (s : PyStr) : PyStr := subColonSpaceGo s.length s

/-- `re.sub(r'\s+', ' ', s)`: collapse every whitespace run to one space
(the boolean records whether the previous character was whitespace). -/
def collapseWsGo : Bool → PyStr → PyStr
  | _, [] => []
  | prevWs, c :: rest =>
    if pyIsSpace c then
      if prevWs then collapseWsGo true rest else ' ' :: collapseWsGo true rest
    else c :: collapseWsGo false rest

def collapseWs (s : PyStr) : PyStr := collapseWsGo false s

/-- Try to match `\d+\s*:\s*` at the head of `s` (the leading `\b` is checked
by the caller; backtracking inside `\d+` never succeeds, so the greedy digit
run is exact). -/
def matchVolumeRun (s : PyStr) : Option PyStr :=
  match (s.dropWhile Char.isDigit).dropWhile pyIsSpace with
  | c :: rest => if c = ':' then some (rest.dropWhile pyIsSpace) else none
  | [] => none

/-- `re.sub(r'\b\d+\s*:\s*', ': ', s)`; the boolean records whether the
previous character of the original string was a word character (for `\b`). -/
def subVolumeGo : Nat → Bool → PyStr → PyStr
  | 0, _, s => s
  | _ + 1, _, [] => []
  | fuel + 1, prevWord, c :: rest =>
    if ¬ prevWord ∧ c.isDigit then
      match matchVolumeRun (c :: rest) with
      | some rest' => ':' :: ' ' :: subVolumeGo fuel false rest'
      | none => c :: subVolumeGo fuel (pyIsWordChar c) rest
    else c :: subVolumeGo fuel (pyIsWordChar c) rest

def subVolume (s : PyStr) : PyStr := subVolumeGo s.length false s

/-- `re.sub(r'[^\w\s]', ' ', s)`: blank all punctuation. -/
def subMinimal (s : PyStr) : PyStr :=
  s.map (fun c => if pyIsWordChar c || pyIsSpace c then c else ' ')

/-- Content predicate of a lazy `.*?` group: any character except a newline
(and the closing delimiter, which the scanners test first). -/
def dotContent (c : Char) : Bool := !(c = '\n')

/-- Content predicate of a complemented class `[^X]*`: anything (the closing
delimiter is tested first by the scanners). -/
def anyContent (_ : Char) : Bool := true

/-- The raw (pre-deduplication) variation list of `_get_artist_variations`,
in the order the source appends: original, NFKC, bracket-segment-removed
(+ NFKC), parenthesis-segment-removed (+ NFKC), first bracket group content
(+ NFKC), first parenthesis group content (+ NFKC), NFD. -/
def rawArtistVariations (s : PyStr) : List PyStr :=
  [s]
  ++ (if pyNFKC s ≠ s then [pyNFKC s] else [])
  ++ (let cleaned := pyStrip (subEnclosed '[' ']' dotContent s)
      if cleaned ≠ [] ∧ cleaned ≠ s then
        [cleaned] ++ (if pyNFKC cleaned ≠ cleaned then [pyNFKC cleaned] else [])
      else [])
  ++ (let cp := pyStrip (subEnclosed '(' ')' dotContent s)
      if cp ≠ [] ∧ cp ≠ s then
        [cp] ++ (if pyNFKC cp ≠ cp then [pyNFKC cp] else [])
      else [])
  ++ (match searchEnclosed '[' ']' dotContent s with
      | some g =>
        let alt := pyStrip g
        if alt ≠ [] then [alt] ++ (if pyNFKC alt ≠ alt then [pyNFKC alt] else []) else []
      | none => [])
  ++ (match searchEnclosed '(' ')' dotContent s with
      | some g =>
        let alt := pyStrip g
        if alt ≠ [] then [alt] ++ (if pyNFKC alt ≠ alt then [pyNFKC alt] else []) else []
      | none => [])
  ++ (if pyNFD s ≠ s ∧ pyNFD s ≠ pyNFKC s then [pyNFD s] else [])

/-- The raw (pre-deduplication) variation list of `_get_album_variations`:
original, NFKC, parenthesis-segment-removed (+ NFKC), bracket-segment-removed
(+ NFKC), first bracket group content (+ NFKC), punctuation-normalized
(+ NFKC), volume-prefix-removed (+ NFKC), minimal-punctuation (+ NFKC),
NFD. -/
def rawAlbumVariations (s : PyStr) : List PyStr :=
  [s]
  ++ (if pyNFKC s ≠ s then [pyNFKC s] else [])
  ++ (let cp := pyStrip (subEnclosed '(' ')' anyContent s)
      if cp ≠ [] ∧ cp ≠ s then
        [cp] ++ (if pyNFKC cp ≠ cp then [pyNFKC cp] else [])
      else [])
  ++ (let cb := pyStrip (subEnclosed '[' ']' anyContent s)
      if cb ≠ [] ∧ cb ≠ s then
        [cb] ++ (if pyNFKC cb ≠ cb then [pyNFKC cb] else [])
      else [])
  ++ (match searchEnclosed '[' ']' dotContent s with
      | some g =>
        let alt := pyStrip g
        if alt ≠ [] then [alt] ++ (if pyNFKC alt ≠ alt then [pyNFKC alt] else []) else []
      | none => [])
  ++ (let np := pyStrip (collapseWs (subColonSpace (subEthiopicColon s)))
      if np ≠ s then [np] ++ (if pyNFKC np ≠ np then [pyNFKC np] else []) else [])
  ++ (let vr := subVolume s
      if vr ≠ s then [vr] ++ (if pyNFKC vr ≠ vr then [pyNFKC vr] else []) else [])
  ++ (let mini := pyStrip (collapseWs (subMinimal s))
      if mini ≠ [] ∧ mini ≠ s then
        [mini] ++ (if pyNFKC mini ≠ mini then [pyNFKC mini] else [])
      else [])
  ++ (if pyNFD s ≠ s ∧ pyNFD s ≠ pyNFKC s then [pyNFD s] else [])

/-- The final loop of both variation generators: strip each variant, drop the
empty ones and the ones already seen, keep first-occurrence order. -/
def dedupSeen : List PyStr → List PyStr → List PyStr
  | [], _ => []
  | v :: rest, seen =>
    let c := pyStrip v
    if c ≠ [] ∧ c ∉ seen then c :: dedupSeen rest (c :: seen)
    else dedupSeen rest seen

/-- `_get_artist_variations` of `rym_genres.py`. -/
def getArtistVariations (s : PyStr) : List PyStr := dedupSeen (rawArtistVariations s) []

/-- `_get_album_variations` of `rym_genres.py`. -/
def getAlbumVariations (s : PyStr) : List PyStr := dedupSeen (rawAlbumVariations s) []

/-!
## The release matcher (`_find_rym_release`)

The catalog (`rym_data`) is a two-level mapping, artist key → album key →
record; the matcher only iterates its values in order, so it is embedded as a
list of lists of records (the `isinstance` guards of the source skip
non-mapping values, which a typed embedding cannot hold).  Of each record the
matcher reads only `artistName` and `releaseTitle`.  The source returns only
the best record; the embedding returns the `(best_match, best_score)` pair it
tracks. -/
structure RRecord where
  artistName : PyStr
  releaseTitle : PyStr
deriving DecidableEq

/-- The configuration values read by `_find_rym_release`:
`similarity_threshold`, `flexible_artist_matching`, `title_match_threshold`. -/
structure MatchConfig where
  threshold : ℚ
  flexible : Bool
  titleThreshold : ℚ

/-- Per-record artist score: the maximum of
`similarity(artist_lower, rym_artist.lower())` over the *record's* artist
variations only — the query artist string is used as-is (lowercased). -/
def bestArtistScore (artistLower : PyStr) (r : RRecord) : ℚ :=
  (getArtistVariations r.artistName).foldl
    (fun best v => max best (similarity artistLower (pyLower v))) 0

/-- Per-record title score: the maximum pairwise similarity between the
query-title variations and the record-title variations. -/
def bestTitleScore (albumVars : List PyStr) (r : RRecord) : ℚ :=
  albumVars.foldl (fun best av =>
    (getAlbumVariations r.releaseTitle).foldl
      (fun b tv => max b (similarity (pyLower av) (pyLower tv))) best) 0

/-- `combined_score = (best_artist_score + best_title_score) / 2`. -/
def combinedScore (artistLower : PyStr) (albumVars : List PyStr) (r : RRecord) : ℚ :=
  (bestArtistScore artistLower r + bestTitleScore albumVars r) / 2

/-- One iteration of the matcher loop: records without an artist name or
title are skipped; a candidate is adopted when its combined score beats the
best so far and reaches the threshold, or — with flexible artist matching on,
a title score at or above `title_match_threshold` and an artist score below
the threshold — when its combined score merely beats the best so far. -/
def stepRecord (cfg : MatchConfig) (artistLower : PyStr) (albumVars : List PyStr)
    (acc : Option RRecord × ℚ) (r : RRecord) : Option RRecord × ℚ :=
  if r.artistName = [] ∨ r.releaseTitle = [] then acc
  else
    let aS := bestArtistScore artistLower r
    let tS := bestTitleScore albumVars r
    let c := (aS + tS) / 2
    if c > acc.2 ∧ c ≥ cfg.threshold then (some r, c)
    else if cfg.flexible = true ∧ tS ≥ cfg.titleThreshold ∧ aS < cfg.threshold then
      (if c > acc.2 then (some r, c) else acc)
    else acc

/-- `_find_rym_release`: scan every record of the two-level catalog, starting
from `best_match = None`, `best_score = 0`. -/
def findRymRelease (artist albumTitle : PyStr) (catalog : List (List RRecord))
    (cfg : MatchConfig) : Option RRecord × ℚ :=
  catalog.foldl
    (fun acc records =>
      records.foldl (stepRecord cfg (pyLower artist) (getAlbumVariations albumTitle)) acc)
    (none, 0)

/-- The artist score as the spec describes it (refinement comparison only):
the maximum pairwise `Similarity` over the full cross-product
`GenerateNameVariations(queryArtist) × GenerateNameVariations(recordArtist)`. -/
def artistScoreSpec (queryArtist rymArtist : PyStr) : ℚ :=
  (getArtistVariations queryArtist).foldl (fun best qv =>
    (getArtistVariations rymArtist).foldl (fun b rv => max b (similarity qv rv)) best) 0

/-! ### The C1 scenario: query `"Artist [Alt Name]"` / `"Title (Remaster)"`
against the catalog record `artistName="Alt Name"`, `releaseTitle="Title"`,
with the default configuration. -/

def qArtistC1 : PyStr := "Artist [Alt Name]".toList

def qTitleC1 : PyStr := "Title (Remaster)".toList

def c1Record : RRecord := ⟨"Alt Name".toList, "Title".toList⟩

/-- The default matcher configuration: `similarity_threshold = 0.8`,
`flexible_artist_matching = true`, `title_match_threshold = 0.95`. -/
def cfgDefault : MatchConfig := ⟨4 / 5, true, 19 / 20⟩

theorem c1ArtistScore_eval : bestArtistScore (pyLower qArtistC1) c1Record = 16 / 25 := by
  have hv : getArtistVariations c1Record.artistName = ["Alt Name".toList] := by decide
  have hs : similarity (pyLower qArtistC1) (pyLower "Alt Name".toList)
      = 2 * (8 : ℚ) / (17 + 8) :=
    similarity_eval _ _ 8 17 8 (by decide) (by decide) (by decide) (by decide)
  rw [bestArtistScore, hv]
  simp only [List.foldl]
  rw [hs]
  norm_num

theorem c1TitleScore_eval :
    bestTitleScore (getAlbumVariations qTitleC1) c1Record = 1 := by
  have hv1 : getAlbumVariations qTitleC1
      = ["Title (Remaster)".toList, "Title".toList, "Title Remaster".toList] := by decide
  have hv2 : getAlbumVariations c1Record.releaseTitle = ["Title".toList] := by decide
  have hs1 : similarity (pyLower "Title (Remaster)".toList) (pyLower "Title".toList)
      = 2 * (5 : ℚ) / (16 + 5) :=
    similarity_eval _ _ 5 16 5 (by decide) (by decide) (by decide) (by decide)
  have hs2 : similarity (pyLower "Title".toList) (pyLower "Title".toList)
      = 2 * (5 : ℚ) / (5 + 5) :=
    similarity_eval _ _ 5 5 5 (by decide) (by decide) (by decide) (by decide)
  have hs3 : similarity (pyLower "Title Remaster".toList) (pyLower "Title".toList)
      = 2 * (5 : ℚ) / (14 + 5) :=
    similarity_eval _ _ 5 14 5 (by decide) (by decide) (by decide) (by decide)
  rw [bestTitleScore, hv1, hv2]
  simp only [List.foldl]
  rw [hs1, hs2, hs3]
  norm_num

/-- Evaluation of the full matcher on the C1 scenario: the record is matched
with combined score `(16/25 + 1)/2 = 0.82`, not `1.0`. -/
theorem findRymReleaseC1_eval :
    findRymRelease qArtistC1 qTitleC1 [[c1Record]] cfgDefault
      = (some c1Record, 41 / 50) := by
  rw [findRymRelease]
  simp only [List.foldl]
  rw [stepRecord]
  rw [if_neg (by decide)]
  simp only [c1ArtistScore_eval, c1TitleScore_eval]
  rw [if_pos (by constructor <;> norm_num [cfgDefault])]
  norm_num

theorem artistScoreSpecC1_eval : artistScoreSpec qArtistC1 c1Record.artistName = 1 := by
  have hv1 : getArtistVariations qArtistC1
      = [qArtistC1, "Artist".toList, "Alt Name".toList] := by decide
  have hv2 : getArtistVariations c1Record.artistName = ["Alt Name".toList] := by decide
  have hs1 : similarity qArtistC1 "Alt Name".toList = 2 * (8 : ℚ) / (17 + 8) :=
    similarity_eval _ _ 8 17 8 (by decide) (by decide) (by decide) (by decide)
  have hs2 : similarity "Artist".toList "Alt Name".toList = 2 * (2 : ℚ) / (6 + 8) :=
    similarity_eval _ _ 2 6 8 (by decide) (by decide) (by decide) (by decide)
  have hs3 : similarity "Alt Name".toList "Alt Name".toList = 2 * (8 : ℚ) / (8 + 8) :=
    similarity_eval _ _ 8 8 8 (by decide) (by decide) (by decide) (by decide)
  rw [artistScoreSpec, hv1, hv2]
  simp only [List.foldl]
  rw [hs1, hs2, hs3]
  norm_num

/-- C1, counterexample: the artist score of `_find_rym_release` is *not* the
maximum over the cross-product of both variation sets — only the catalog
record's artist is varied, while the query artist is used as one lowercased
string.  On the claim's own scenario the code's artist score is `0.64`
(spec cross-product: `1`), and the combined score is `0.82`, not `1.0`
(the record is still matched, since `0.82 ≥ 0.8`). -/
theorem c1_scenario_counterexample :
    bestArtistScore (pyLower qArtistC1) c1Record = 16 / 25 ∧
    artistScoreSpec qArtistC1 c1Record.artistName = 1 ∧
    ¬ bestArtistScore (pyLower qArtistC1) c1Record
        = artistScoreSpec qArtistC1 c1Record.artistName ∧
    (findRymRelease qArtistC1 qTitleC1 [[c1Record]] cfgDefault).2 = 41 / 50 ∧
    ¬ (findRymRelease qArtistC1 qTitleC1 [[c1Record]] cfgDefault).2 = 1 := by
  refine ⟨c1ArtistScore_eval, artistScoreSpecC1_eval, ?_, ?_, ?_⟩
  · rw [c1ArtistScore_eval, artistScoreSpecC1_eval]; norm_num
  · rw [findRymReleaseC1_eval]
  · rw [findRymReleaseC1_eval]; norm_num

/-- C1, amended: for every catalog record with a non-empty artist name and
title, `_find_rym_release` computes the artist score as the maximum of
`Similarity` between the lowercased query artist (used as-is, without
variation generation) and each element of
`GenerateNameVariations(recordArtist)`; the title score does use the full
variation cross-product.  In the claim's scenario the record is matched with
combined score `0.82` (artist `0.64`, title `1.0`), which clears the default
threshold `0.8`. -/
theorem c1_scenario_amended :
    findRymRelease qArtistC1 qTitleC1 [[c1Record]] cfgDefault
      = (some c1Record, 41 / 50) ∧
    41 / 50 = ((16 : ℚ) / 25 + 1) / 2 ∧
    bestArtistScore (pyLower qArtistC1) c1Record = 16 / 25 ∧
    bestTitleScore (getAlbumVariations qTitleC1) c1Record = 1 :=
  ⟨findRymReleaseC1_eval, by norm_num, c1ArtistScore_eval, c1TitleScore_eval⟩

/-- Every member of a list has a first occurrence. -/
theorem exists_first_occ {α : Type} : ∀ (L : List α) (r : α), r ∈ L →
    ∃ L1 L2, L = L1 ++ r :: L2 ∧ r ∉ L1 := by
  intro L
  induction L with
  | nil => intro r h; simp at h
  | cons a t ih =>
    intro r h
    by_cases ha : a = r
    · exact ⟨[], t, by simp [ha], by simp⟩
    · rcases List.mem_cons.mp h with heq | ht
      · exact absurd heq.symm ha
      · rcases ih r ht with ⟨L1, L2, hL, hr⟩
        exact ⟨a :: L1, L2, by rw [hL]; rfl, by
          intro hcon
          rcases List.mem_cons.mp hcon with heq | h1
          · exact ha heq.symm
          · exact hr h1⟩

/-- One matcher step either keeps the accumulator or adopts the current
record at its combined score, and adoption only ever raises the best score. -/
theorem stepRecord_cases (cfg : MatchConfig) (aL : PyStr) (aV : List PyStr)
    (acc : Option RRecord × ℚ) (r : RRecord) :
    stepRecord cfg aL aV acc r = acc ∨
    (stepRecord cfg aL aV acc r = (some r, combinedScore aL aV r) ∧
      acc.2 < combinedScore aL aV r) := by
  rw [stepRecord]
  by_cases hskip : r.artistName = [] ∨ r.releaseTitle = []
  · rw [if_pos hskip]; exact Or.inl rfl
  · rw [if_neg hskip]
    by_cases h1 : (bestArtistScore aL r + bestTitleScore aV r) / 2 > acc.2 ∧
        (bestArtistScore aL r + bestTitleScore aV r) / 2 ≥ cfg.threshold
    · rw [if_pos h1]
      exact Or.inr ⟨rfl, h1.1⟩
    · rw [if_neg h1]
      by_cases h2 : cfg.flexible = true ∧
          bestTitleScore aV r ≥ cfg.titleThreshold ∧ bestArtistScore aL r < cfg.threshold
      · rw [if_pos h2]
        by_cases h3 : (bestArtistScore aL r + bestTitleScore aV r) / 2 > acc.2
        · rw [if_pos h3]; exact Or.inr ⟨rfl, h3⟩
        · rw [if_neg h3]; exact Or.inl rfl
      · rw [if_neg h2]; exact Or.inl rfl

/-- While every record seen scores strictly below `combinedScore … r`, the
best score stays strictly below it. -/
theorem foldl_step_lt (cfg : MatchConfig) (aL : PyStr) (aV : List PyStr) (r : RRecord) :
    ∀ (L : List RRecord) (acc : Option RRecord × ℚ),
      (∀ r' ∈ L, combinedScore aL aV r' < combinedScore aL aV r) →
      acc.2 < combinedScore aL aV r →
      (L.foldl (stepRecord cfg aL aV) acc).2 < combinedScore aL aV r := by
  intro L
  induction L with
  | nil => intro acc _ h; exact h
  | cons a t ih =>
    intro acc hL hacc
    rw [List.foldl_cons]
    rcases stepRecord_cases cfg aL aV acc a with heq | ⟨heq, _⟩ <;> rw [heq]
    · exact ih acc (fun r' h => hL r' (List.mem_cons_of_mem a h)) hacc
    · exact ih _ (fun r' h => hL r' (List.mem_cons_of_mem a h))
        (hL a (List.mem_cons_self a t))

/-- With flexible matching on, a record whose title score reaches
`title_match_threshold` and whose artist score misses the threshold is
adopted the moment its combined score beats the best so far — whether or not
the combined score reaches the threshold. -/
theorem stepRecord_adopts (cfg : MatchConfig) (aL : PyStr) (aV : List PyStr)
    (acc : Option RRecord × ℚ) (r : RRecord)
    (hflex : cfg.flexible = true)
    (hne : ¬ (r.artistName = [] ∨ r.releaseTitle = []))
    (ht : bestTitleScore aV r ≥ cfg.titleThreshold)
    (ha : bestArtistScore aL r < cfg.threshold)
    (hgt : acc.2 < combinedScore aL aV r) :
    stepRecord cfg aL aV acc r = (some r, combinedScore aL aV r) := by
  rw [stepRecord, if_neg hne]
  by_cases hth : (bestArtistScore aL r + bestTitleScore aV r) / 2 ≥ cfg.threshold
  · rw [if_pos ⟨hgt, hth⟩]; rfl
  · rw [if_neg (fun hcon => hth hcon.2), if_pos ⟨hflex, ht, ha⟩,
      if_pos (show (bestArtistScore aL r + bestTitleScore aV r) / 2 > acc.2 from hgt)]
    rfl

/-- Once the best is `(r, combinedScore r)`, records scoring no higher never
replace it. -/
theorem foldl_step_keep (cfg : MatchConfig) (aL : PyStr) (aV : List PyStr) (r : RRecord) :
    ∀ (L : List RRecord),
      (∀ r' ∈ L, combinedScore aL aV r' ≤ combinedScore aL aV r) →
      L.foldl (stepRecord cfg aL aV) (some r, combinedScore aL aV r)
        = (some r, combinedScore aL aV r) := by
  intro L
  induction L with
  | nil => intro _; rfl
  | cons a t ih =>
    intro hL
    rw [List.foldl_cons]
    rcases stepRecord_cases cfg aL aV (some r, combinedScore aL aV r) a with heq | ⟨_, hlt⟩
    · rw [heq]
      exact ih (fun r' h => hL r' (List.mem_cons_of_mem a h))
    · exact absurd (hL a (List.mem_cons_self a t)) (by simpa using hlt.not_le)

/-- C6: with `flexibleArtistMatching` enabled, a candidate whose title score
is at least `titleMatchThreshold` and whose artist score is below the
threshold is adopted whenever its combined score exceeds every other
candidate's combined score — even when the combined score is below the
threshold.  Flexible matches compete for the same single best-score slot as
primary matches (the conclusion is about the one `best_match`/`best_score`
pair the matcher returns), not in a separate tier. -/
theorem c6_flexible_matching_same_slot (cfg : MatchConfig) (artist albumTitle : PyStr)
    (catalog : List (List RRecord)) (r : RRecord)
    (hflex : cfg.flexible = true)
    (hmem : r ∈ catalog.flatten)
    (hne : ¬ (r.artistName = [] ∨ r.releaseTitle = []))
    (ht : bestTitleScore (getAlbumVariations albumTitle) r ≥ cfg.titleThreshold)
    (ha : bestArtistScore (pyLower artist) r < cfg.threshold)
    (hpos : 0 < combinedScore (pyLower artist) (getAlbumVariations albumTitle) r)
    (hmax : ∀ r' ∈ catalog.flatten, r' ≠ r →
      combinedScore (pyLower artist) (getAlbumVariations albumTitle) r' <
        combinedScore (pyLower artist) (getAlbumVariations albumTitle) r) :
    findRymRelease artist albumTitle catalog cfg
      = (some r, combinedScore (pyLower artist) (getAlbumVariations albumTitle) r) := by
  rw [findRymRelease, ← List.foldl_flatten]
  rcases exists_first_occ catalog.flatten r hmem with ⟨L1, L2, hL, hr1⟩
  rw [hL, List.foldl_append, List.foldl_cons]
  have h1 : (L1.foldl (stepRecord cfg (pyLower artist) (getAlbumVariations albumTitle))
      (none, 0)).2 < combinedScore (pyLower artist) (getAlbumVariations albumTitle) r := by
    refine foldl_step_lt cfg _ _ r L1 (none, 0) ?_ hpos
    intro r' h
    refine hmax r' (by rw [hL]; exact List.mem_append.mpr (Or.inl h)) ?_
    intro hcon; exact hr1 (hcon ▸ h)
  rw [stepRecord_adopts cfg _ _ _ r hflex hne ht ha h1]
  refine foldl_step_keep cfg _ _ r L2 ?_
  intro r' h
  by_cases hrr : r' = r
  · rw [hrr]
  · exact le_of_lt (hmax r'
      (by rw [hL]; exact List.mem_append.mpr (Or.inr (List.mem_cons_of_mem r h))) hrr)

/-- Concrete record for the C6 witness: a perfect title match with an
entirely dissimilar artist. -/
def rec6 : RRecord := ⟨"xy".toList, "Hello".toList⟩

theorem c6auxTitle : bestTitleScore (getAlbumVariations "Hello".toList) rec6 = 1 := by
  have hv1 : getAlbumVariations "Hello".toList = ["Hello".toList] := by decide
  have hv2 : getAlbumVariations rec6.releaseTitle = ["Hello".toList] := by decide
  have hs : similarity (pyLower "Hello".toList) (pyLower "Hello".toList)
      = 2 * (5 : ℚ) / (5 + 5) :=
    similarity_eval _ _ 5 5 5 (by decide) (by decide) (by decide) (by decide)
  rw [bestTitleScore, hv1, hv2]
  simp only [List.foldl]
  rw [hs]
  norm_num

theorem c6auxArtist : bestArtistScore (pyLower "ab".toList) rec6 = 0 := by
  have hv : getArtistVariations rec6.artistName = ["xy".toList] := by decide
  have hs : similarity (pyLower "ab".toList) (pyLower "xy".toList)
      = 2 * (0 : ℚ) / (2 + 2) :=
    similarity_eval _ _ 0 2 2 (by decide) (by decide) (by decide) (by decide)
  rw [bestArtistScore, hv]
  simp only [List.foldl]
  rw [hs]
  norm_num

theorem c6auxComb :
    combinedScore (pyLower "ab".toList) (getAlbumVariations "Hello".toList) rec6 = 1 / 2 := by
  rw [combinedScore, c6auxArtist, c6auxTitle]
  norm_num

/-- C6 witness: the sole candidate has title score `1 ≥ 0.95`, artist score
`0 < 0.8` and combined score `0.5 < 0.8`, yet with flexible matching on it
becomes the best match. -/
theorem c6_flexible_matching_same_slot_witness :
    findRymRelease "ab".toList "Hello".toList [[rec6]] ⟨4 / 5, true, 19 / 20⟩
      = (some rec6,
          combinedScore (pyLower "ab".toList) (getAlbumVariations "Hello".toList) rec6) := by
  refine c6_flexible_matching_same_slot ⟨4 / 5, true, 19 / 20⟩ "ab".toList "Hello".toList
    [[rec6]] rec6 rfl (by simp) (by decide) ?_ ?_ ?_ ?_
  · show bestTitleScore (getAlbumVariations "Hello".toList) rec6 ≥ 19 / 20
    rw [c6auxTitle]; norm_num
  · show bestArtistScore (pyLower "ab".toList) rec6 < 4 / 5
    rw [c6auxArtist]; norm_num
  · rw [c6auxComb]; norm_num
  · intro r' hmem' hne'
    exfalso
    simp at hmem'
    exact hne' hmem'

/-! ### Properties of the final strip/dedup loop (C9) -/

theorem dropWhile_idem {α : Type} (p : α → Bool) :
    ∀ l : List α, (l.dropWhile p).dropWhile p = l.dropWhile p := by
  intro l
  induction l with
  | nil => rfl
  | cons a rest ih =>
    by_cases hp : p a = true
    · rw [List.dropWhile_cons, if_pos hp]
      exact ih
    · rw [List.dropWhile_cons, if_neg hp, List.dropWhile_cons, if_neg hp]

theorem dropWhile_eq_self_of_headq {α : Type} (p : α → Bool) (l : List α)
    (h : ∀ c, l.head? = some c → p c = false) : l.dropWhile p = l := by
  match l with
  | [] => rfl
  | a :: rest =>
    rw [List.dropWhile_cons, if_neg (by rw [h a rfl]; simp)]

theorem dropWhile_headq {α : Type} (p : α → Bool) :
    ∀ (l : List α) (c : α), (l.dropWhile p).head? = some c → p c = false := by
  intro l
  induction l with
  | nil => intro c h; simp [List.dropWhile] at h
  | cons a rest ih =>
    intro c h
    by_cases hp : p a = true
    · rw [List.dropWhile_cons, if_pos hp] at h
      exact ih c h
    · rw [List.dropWhile_cons, if_neg hp] at h
      simp only [List.head?_cons, Option.some.injEq] at h
      rw [← h]
      simpa using hp

theorem dropWhile_getLastq {α : Type} (p : α → Bool) :
    ∀ (l : List α), l.dropWhile p ≠ [] → (l.dropWhile p).getLast? = l.getLast? := by
  intro l
  induction l with
  | nil => intro h; simp [List.dropWhile] at h
  | cons a rest ih =>
    intro h
    by_cases hp : p a = true
    · rw [List.dropWhile_cons, if_pos hp] at h ⊢
      rw [ih h]
      have hrest : rest ≠ [] := by
        intro hcon; rw [hcon] at h; exact h rfl
      match rest, hrest with
      | b :: rest', _ => rw [List.getLast?_cons_cons]
    · rw [List.dropWhile_cons, if_neg hp]

theorem pyStrip_idem (s : PyStr) : pyStrip (pyStrip s) = pyStrip s := by
  have hps : pyStrip s = ((s.dropWhile pyIsSpace).reverse.dropWhile pyIsSpace).reverse := rfl
  rw [pyStrip, hps]
  have hstep1 : ((s.dropWhile pyIsSpace).reverse.dropWhile pyIsSpace).reverse.dropWhile
      pyIsSpace = ((s.dropWhile pyIsSpace).reverse.dropWhile pyIsSpace).reverse := by
    refine dropWhile_eq_self_of_headq pyIsSpace _ ?_
    intro c hc
    rw [List.head?_reverse] at hc
    have hne : (s.dropWhile pyIsSpace).reverse.dropWhile pyIsSpace ≠ [] := by
      intro hcon; rw [hcon] at hc; simp at hc
    rw [dropWhile_getLastq pyIsSpace _ hne] at hc
    rw [List.getLast?_reverse] at hc
    exact dropWhile_headq pyIsSpace s c hc
  rw [hstep1, List.reverse_reverse, dropWhile_idem]

theorem dedupSeen_mem :
    ∀ (raws seen : List PyStr) (y : PyStr), y ∈ dedupSeen raws seen →
      y ∈ raws.map pyStrip ∧ y ≠ [] ∧ y ∉ seen := by
  intro raws
  induction raws with
  | nil => intro seen y h; simp [dedupSeen] at h
  | cons v rest ih =>
    intro seen y h
    rw [dedupSeen] at h
    by_cases hc : pyStrip v ≠ [] ∧ pyStrip v ∉ seen
    · rw [if_pos hc] at h
      rcases List.mem_cons.mp h with rfl | h'
      · exact ⟨List.mem_cons_self _ _, hc.1, hc.2⟩
      · have := ih (pyStrip v :: seen) y h'
        exact ⟨List.mem_cons_of_mem _ this.1, this.2.1,
          fun hcon => this.2.2 (List.mem_cons_of_mem _ hcon)⟩
    · rw [if_neg hc] at h
      have := ih seen y h
      exact ⟨List.mem_cons_of_mem _ this.1, this.2⟩

theorem dedupSeen_nodup : ∀ (raws seen : List PyStr), (dedupSeen raws seen).Nodup := by
  intro raws
  induction raws with
  | nil => intro seen; simp [dedupSeen]
  | cons v rest ih =>
    intro seen
    rw [dedupSeen]
    by_cases hc : pyStrip v ≠ [] ∧ pyStrip v ∉ seen
    · rw [if_pos hc]
      refine List.nodup_cons.mpr ⟨?_, ih _⟩
      intro hcon
      exact (dedupSeen_mem rest (pyStrip v :: seen) _ hcon).2.2 (List.mem_cons_self _ _)
    · rw [if_neg hc]
      exact ih seen

/-- Index of the first occurrence of `x` in a list (length of the list if
absent). -/
def firstIdx (x : PyStr) : List PyStr → Nat
  | [] => 0
  | y :: rest => if y = x then 0 else firstIdx x rest + 1

theorem firstIdx_cons_self (x : PyStr) (l : List PyStr) : firstIdx x (x :: l) = 0 := by
  simp [firstIdx]

theorem firstIdx_cons_ne (x y : PyStr) (l : List PyStr) (h : ¬ y = x) :
    firstIdx x (y :: l) = firstIdx x l + 1 := by
  simp [firstIdx, h]

/-- The output of the strip/dedup loop is ordered by first occurrence in the
stripped raw variation sequence. -/
theorem dedupSeen_firstOccOrder :
    ∀ (raws seen : List PyStr),
      List.Pairwise (fun x y =>
        firstIdx x (raws.map pyStrip) < firstIdx y (raws.map pyStrip))
        (dedupSeen raws seen) := by
  intro raws
  induction raws with
  | nil => intro seen; simp [dedupSeen]
  | cons v rest ih =>
    intro seen
    rw [dedupSeen]
    by_cases hc : pyStrip v ≠ [] ∧ pyStrip v ∉ seen
    · rw [if_pos hc]
      refine List.pairwise_cons.mpr ⟨?_, ?_⟩
      · intro y hy
        have hmem := dedupSeen_mem rest (pyStrip v :: seen) y hy
        have hyne : y ≠ pyStrip v := fun hcon =>
          hmem.2.2 (hcon ▸ List.mem_cons_self _ _)
        rw [List.map_cons, firstIdx_cons_self, firstIdx_cons_ne y (pyStrip v) _
          (fun hcon => hyne hcon.symm)]
        exact Nat.succ_pos _
      · refine List.Pairwise.imp_of_mem ?_ (ih (pyStrip v :: seen))
        intro x y hx hy hlt
        have hxne : x ≠ pyStrip v := fun hcon =>
          (dedupSeen_mem rest _ x hx).2.2 (hcon ▸ List.mem_cons_self _ _)
        have hyne : y ≠ pyStrip v := fun hcon =>
          (dedupSeen_mem rest _ y hy).2.2 (hcon ▸ List.mem_cons_self _ _)
        rw [List.map_cons, firstIdx_cons_ne x (pyStrip v) _ (fun hcon => hxne hcon.symm),
          firstIdx_cons_ne y (pyStrip v) _ (fun hcon => hyne hcon.symm)]
        omega
    · rw [if_neg hc]
      have hor : pyStrip v = [] ∨ pyStrip v ∈ seen := by
        rcases not_and_or.mp hc with h1 | h2
        · exact Or.inl (not_not.mp h1)
        · exact Or.inr (not_not.mp h2)
      refine List.Pairwise.imp_of_mem ?_ (ih seen)
      intro x y hx hy hlt
      have hxm := dedupSeen_mem rest seen x hx
      have hym := dedupSeen_mem rest seen y hy
      have hxne : x ≠ pyStrip v := by
        rcases hor with h | h
        · intro hcon; exact hxm.2.1 (hcon.trans h)
        · intro hcon; exact hxm.2.2 (hcon ▸ h)
      have hyne : y ≠ pyStrip v := by
        rcases hor with h | h
        · intro hcon; exact hym.2.1 (hcon.trans h)
        · intro hcon; exact hym.2.2 (hcon ▸ h)
      rw [List.map_cons, firstIdx_cons_ne x (pyStrip v) _ (fun hcon => hxne hcon.symm),
        firstIdx_cons_ne y (pyStrip v) _ (fun hcon => hyne hcon.symm)]
      omega

/-- Entries of the strip/dedup loop are stripped (no leading or trailing
whitespace) and non-empty after trimming. -/
theorem dedupSeen_stripped (raws seen : List PyStr) (y : PyStr)
    (h : y ∈ dedupSeen raws seen) : pyStrip y = y ∧ pyStrip y ≠ [] := by
  have hm := dedupSeen_mem raws seen y h
  rcases List.mem_map.mp hm.1 with ⟨v, _, hv⟩
  have hid : pyStrip y = y := by rw [← hv, pyStrip_idem]
  exact ⟨hid, by rw [hid]; exact hm.2.1⟩

/-- C9: for every input name, both `GenerateNameVariations` generators
(artist and album-title) return a list in which no entry is empty after
trimming, every entry carries no leading or trailing whitespace, no two
entries are equal, and the entries appear in the order of their first
occurrence in the generated (stripped) variation sequence. -/
theorem c9_variations_clean (name : PyStr) :
    ((∀ y ∈ getArtistVariations name, pyStrip y = y ∧ pyStrip y ≠ []) ∧
      (getArtistVariations name).Nodup ∧
      List.Pairwise (fun x y =>
        firstIdx x ((rawArtistVariations name).map pyStrip)
          < firstIdx y ((rawArtistVariations name).map pyStrip))
        (getArtistVariations name)) ∧
    ((∀ y ∈ getAlbumVariations name, pyStrip y = y ∧ pyStrip y ≠ []) ∧
      (getAlbumVariations name).Nodup ∧
      List.Pairwise (fun x y =>
        firstIdx x ((rawAlbumVariations name).map pyStrip)
          < firstIdx y ((rawAlbumVariations name).map pyStrip))
        (getAlbumVariations name)) :=
  ⟨⟨fun y hy => dedupSeen_stripped _ _ y hy, dedupSeen_nodup _ _,
      dedupSeen_firstOccOrder _ _⟩,
    ⟨fun y hy => dedupSeen_stripped _ _ y hy, dedupSeen_nodup _ _,
      dedupSeen_firstOccOrder _ _⟩⟩

/-!
## The genre hierarchy (`rym_genre_hierarchy.py`)

Genre names are `List Char` (Python strings), ancestor paths are lists of
names, and Python sets are duplicate-free Lean lists built with
`setInsert` — every claim about them is membership-based, so the list
representation is faithful.  The `genre_to_parents` dict is a total function
with the empty set as default (`get_all_parent_genres` returns the empty set
for a missing key, so the two representations are indistinguishable to every
caller in the source).
-/

/-- `s.add(x)` on a Python set modelled as a duplicate-free list. -/
def setInsert {α : Type} [DecidableEq α] (x : α) (s : List α) : List α :=
  if x ∈ s then s else x :: s

theorem mem_setInsert {α : Type} [DecidableEq α] (x y : α) (s : List α) :
    y ∈ setInsert x s ↔ y = x ∨ y ∈ s := by
  rw [setInsert]
  by_cases h : x ∈ s
  · rw [if_pos h]
    constructor
    · exact Or.inr
    · rintro (rfl | hy)
      · exact h
      · exact hy
  · rw [if_neg h]
    exact List.mem_cons

/-- JSON values as loaded by `json.load`. -/
inductive PyJson where
  | null
  | boolean (b : Bool)
  | num (q : ℚ)
  | str (s : List Char)
  | arr (items : List PyJson)
  | obj (fields : List (List Char × PyJson))

mutual

/-- Structural size of a JSON value, used only as recursion fuel. -/
def jsize : PyJson → Nat
  | .null => 1
  | .boolean _ => 1
  | .num _ => 1
  | .str _ => 1
  | .arr items => 1 + jsizeList items
  | .obj fields => 1 + jsizeFields fields

def jsizeList : List PyJson → Nat
  | [] => 1
  | j :: rest => 1 + jsize j + jsizeList rest

def jsizeFields : List (List Char × PyJson) → Nat
  | [] => 1
  | kv :: rest => 1 + jsize kv.2 + jsizeFields rest

end

/-- Dict lookup (`node['key']`, as `Option`). -/
def jlookup (k : List Char) : List (List Char × PyJson) → Option PyJson
  | [] => none
  | (k', v) :: rest => if k' = k then some v else jlookup k rest

/-- Python truthiness of a JSON value. -/
def jtruthy : PyJson → Bool
  | .null => false
  | .boolean b => b
  | .num q => decide (¬ q = 0)
  | .str s => !s.isEmpty
  | .arr l => !l.isEmpty
  | .obj l => !l.isEmpty

/-- `node['name']` in `_parse_tree`: a failure (`none`) models the
`TypeError`/`KeyError` raised for a non-mapping node or a missing key, which
`load_hierarchy`'s `except` catches.  A non-string name — outside the
documented taxonomy shape `{name: string, children}` — is likewise modelled
as a failure. -/
def getName : PyJson → Option (List Char)
  | .obj fields =>
    match jlookup ['n', 'a', 'm', 'e'] fields with
    | some (.str s) => some s
    | _ => none
  | _ => none

inductive ChildrenRes where
  | absent
  | recurse (l : List PyJson)
  | iterFail

/-- `'children' in node and node['children']` followed by the recursive call:
an absent or falsy value is skipped; a truthy array is recursed into; any
other truthy value makes the recursive `for node in nodes` (or the immediate
`node['name']` on its first element) raise before mutating anything. -/
def getChildren : PyJson → ChildrenRes
  | .obj fields =>
    match jlookup ['c', 'h', 'i', 'l', 'd', 'r', 'e', 'n'] fields with
    | none => .absent
    | some v =>
      if jtruthy v then
        match v with
        | .arr l => .recurse l
        | _ => .iterFail
      else .absent
  | _ => .absent

/-- The mutable state of `RYMGenreHierarchy`: the known-genre set
`all_genres` and the ancestor-path map `genre_to_parents`. -/
structure HState where
  all : List (List Char)
  gtp : List Char → List (List (List Char))

def emptyHState : HState := ⟨[], fun _ => []⟩

/-- `for i in range(len(parent_path)): …add(tuple(parent_path[:i+1]))`. -/
def prefixPathsAdd (pp : List (List Char)) (cur : List (List (List Char))) :
    List (List (List Char)) :=
  (List.range pp.length).foldl (fun acc i => setInsert (pp.take (i + 1)) acc) cur

/-- Registration of one node: add the genre to `all_genres`, then add every
non-empty prefix of the parent path to its ancestor-path set. -/
def registerGenre (st : HState) (name : List Char) (pp : List (List Char)) : HState :=
  { all := setInsert name st.all,
    gtp := fun g => if g = name then prefixPathsAdd pp (st.gtp g) else st.gtp g }

/-- `_parse_tree`, fuelled (the fuel only bounds the recursion depth and the
sequential node count; `loadHierarchy` passes more than enough).  The boolean
is `false` when the Python code would raise: the state accumulated so far is
returned with it, because the exception propagates to `load_hierarchy`'s
`except` with all prior mutations retained. -/
def parseTreeF : Nat → List PyJson → List (List Char) → HState → HState × Bool
  | 0, _, _, st => (st, false)
  | _ + 1, [], _, st => (st, true)
  | fuel + 1, n :: rest, pp, st =>
    match getName n with
    | none => (st, false)
    | some name =>
      let st1 := registerGenre st name pp
      match getChildren n with
      | .absent => parseTreeF fuel rest pp st1
      | .iterFail => (st1, false)
      | .recurse l =>
        match parseTreeF fuel l (pp ++ [name]) st1 with
        | (st2, false) => (st2, false)
        | (st2, true) => parseTreeF fuel rest pp st2

/-- The three load outcomes `load_hierarchy` distinguishes before parsing:
a missing file (early `return`), a `json.load` failure (caught, no state
touched), or a parsed document. -/
inductive TaxonomyInput where
  | missingFile
  | malformedJson
  | doc (j : PyJson)

/-- `load_hierarchy`: on a missing file or malformed JSON nothing is parsed;
otherwise `data['genreHierarchy']` is read (a missing key or a non-list value
raises before any mutation) and `_parse_tree` runs with every exception
caught — a parse failure keeps whatever was registered before it.  The
function is total: no outcome raises to the caller. -/
def loadHierarchy : TaxonomyInput → HState
  | .missingFile => emptyHState
  | .malformedJson => emptyHState
  | .doc j =>
    match j with
    | .obj fields =>
      match jlookup "genreHierarchy".toList fields with
      | some (.arr nodes) => (parseTreeF (jsize j + 1) nodes [] emptyHState).1
      | some _ => emptyHState
      | none => emptyHState
    | _ => emptyHState


theorem mem_prefixPathsAdd (pp : List (List Char)) :
    ∀ (cur : List (List (List Char))) (p : List (List Char)),
      p ∈ prefixPathsAdd pp cur → p ∈ cur ∨ ∃ i, p = pp.take (i + 1) := by
  simp only [prefixPathsAdd]
  generalize List.range pp.length = idx
  induction idx with
  | nil => intro cur p h; exact Or.inl h
  | cons i is ih =>
    intro cur p h
    rw [List.foldl_cons] at h
    rcases ih _ p h with hc | hex
    · rcases (mem_setInsert _ p cur).mp hc with rfl | hc'
      · exact Or.inr ⟨i, rfl⟩
      · exact Or.inl hc'
    · exact Or.inr hex

/-- `all_genres` only ever grows during parsing. -/
theorem parseTreeF_all_mono :
    ∀ (fuel : Nat) (nodes : List PyJson) (pp : List (List Char)) (st : HState) (x : List Char),
      x ∈ st.all → x ∈ (parseTreeF fuel nodes pp st).1.all := by
  intro fuel
  induction fuel with
  | zero => intro nodes pp st x hx; exact hx
  | succ fuel ih =>
    intro nodes pp st x hx
    match nodes with
    | [] => exact hx
    | n :: rest =>
      cases hname : getName n with
      | none => simpa [parseTreeF, hname] using hx
      | some name =>
        have hx1 : x ∈ (registerGenre st name pp).all :=
          (mem_setInsert name x st.all).mpr (Or.inr hx)
        cases hch : getChildren n with
        | absent => simpa [parseTreeF, hname, hch] using ih rest pp _ x hx1
        | iterFail => simpa [parseTreeF, hname, hch] using hx1
        | recurse l =>
          have hx2 := ih l (pp ++ [name]) (registerGenre st name pp) x hx1
          cases hp : parseTreeF fuel l (pp ++ [name]) (registerGenre st name pp) with
          | mk st2 ok =>
            rw [hp] at hx2
            cases ok with
            | false => simpa [parseTreeF, hname, hch, hp] using hx2
            | true =>
              simpa [parseTreeF, hname, hch, hp] using ih rest pp st2 x hx2

/-- The registration invariant: every element of every stored ancestor path
is a registered genre — preserved by parsing from any state that satisfies
it, provided the accumulated parent path is itself registered. -/
theorem parseTreeF_paths_reg :
    ∀ (fuel : Nat) (nodes : List PyJson) (pp : List (List Char)) (st : HState),
      (∀ x ∈ pp, x ∈ st.all) →
      (∀ g p x, p ∈ st.gtp g → x ∈ p → x ∈ st.all) →
      ∀ g p x, p ∈ (parseTreeF fuel nodes pp st).1.gtp g → x ∈ p →
        x ∈ (parseTreeF fuel nodes pp st).1.all := by
  intro fuel
  induction fuel with
  | zero => intro nodes pp st _ hinv; exact hinv
  | succ fuel ih =>
    intro nodes pp st hpp hinv
    match nodes with
    | [] => exact hinv
    | n :: rest =>
      cases hname : getName n with
      | none => simpa [parseTreeF, hname] using hinv
      | some name =>
        have hpp1 : ∀ x ∈ pp, x ∈ (registerGenre st name pp).all := fun x hx =>
          (mem_setInsert name x st.all).mpr (Or.inr (hpp x hx))
        have hinv1 : ∀ g p x, p ∈ (registerGenre st name pp).gtp g → x ∈ p →
            x ∈ (registerGenre st name pp).all := by
          intro g p x hp hx
          rw [registerGenre] at hp
          simp only at hp
          by_cases hg : g = name
          · rw [if_pos hg] at hp
            rcases mem_prefixPathsAdd pp (st.gtp g) p hp with hold | ⟨i, hpre⟩
            · exact (mem_setInsert name x st.all).mpr (Or.inr (hinv g p x hold hx))
            · have hxp : x ∈ pp := List.take_subset (i + 1) pp (hpre ▸ hx)
              exact hpp1 x hxp
          · rw [if_neg hg] at hp
            exact (mem_setInsert name x st.all).mpr (Or.inr (hinv g p x hp hx))
        have hppname : ∀ x ∈ pp ++ [name], x ∈ (registerGenre st name pp).all := by
          intro x hx
          rcases List.mem_append.mp hx with h | h
          · exact hpp1 x h
          · rw [List.mem_singleton] at h
            rw [h]
            exact (mem_setInsert name name st.all).mpr (Or.inl rfl)
        cases hch : getChildren n with
        | absent =>
          simpa [parseTreeF, hname, hch] using ih rest pp _ hpp1 hinv1
        | iterFail => simpa [parseTreeF, hname, hch] using hinv1
        | recurse l =>
          have hchild := ih l (pp ++ [name]) (registerGenre st name pp) hppname hinv1
          cases hp : parseTreeF fuel l (pp ++ [name]) (registerGenre st name pp) with
          | mk st2 ok =>
            rw [hp] at hchild
            cases ok with
            | false => simpa [parseTreeF, hname, hch, hp] using hchild
            | true =>
              have hpp2 : ∀ x ∈ pp, x ∈ st2.all := by
                intro x hx
                have := parseTreeF_all_mono fuel l (pp ++ [name])
                  (registerGenre st name pp) x (hpp1 x hx)
                rw [hp] at this
                exact this
              simpa [parseTreeF, hname, hch, hp] using ih rest pp st2 hpp2 hchild

/-- C8: after `load_hierarchy` on any input (in particular any well-formed
taxonomy forest), every element of every stored ancestor path is itself a
member of the known-genre set `all_genres`. -/
theorem c8_paths_are_registered (input : TaxonomyInput) :
    ∀ g p x, p ∈ (loadHierarchy input).gtp g → x ∈ p →
      x ∈ (loadHierarchy input).all := by
  have hempty : ∀ g p (x : List Char), p ∈ emptyHState.gtp g → x ∈ p →
      x ∈ emptyHState.all := by
    intro g p x hp _
    simp [emptyHState] at hp
  match input with
  | .missingFile => exact hempty
  | .malformedJson => exact hempty
  | .doc j =>
    match j with
    | .null => exact hempty
    | .boolean b => exact hempty
    | .num q => exact hempty
    | .str s => exact hempty
    | .arr l => exact hempty
    | .obj fields =>
      cases hl : jlookup ['g', 'e', 'n', 'r', 'e', 'H', 'i', 'e', 'r', 'a', 'r', 'c', 'h', 'y'] fields with
      | none => simpa [loadHierarchy, hl] using hempty
      | some v =>
        match v with
        | .null => simpa [loadHierarchy, hl] using hempty
        | .boolean b => simpa [loadHierarchy, hl] using hempty
        | .num q => simpa [loadHierarchy, hl] using hempty
        | .str s => simpa [loadHierarchy, hl] using hempty
        | .obj l => simpa [loadHierarchy, hl] using hempty
        | .arr nodes =>
          have := parseTreeF_paths_reg (jsize (.obj fields) + 1) nodes [] emptyHState
            (by simp) hempty
          simpa [loadHierarchy, hl] using this

theorem mem_foldl_setInsert {α : Type} [DecidableEq α] (l : List α) :
    ∀ (acc : List α) (x : α),
      x ∈ l.foldl (fun a y => setInsert y a) acc ↔ x ∈ acc ∨ x ∈ l := by
  induction l with
  | nil => intro acc x; simp
  | cons y ys ih =>
    intro acc x
    rw [List.foldl_cons, ih, mem_setInsert]
    constructor
    · rintro ((rfl | h) | h)
      · exact Or.inr (List.mem_cons_self _ _)
      · exact Or.inl h
      · exact Or.inr (List.mem_cons_of_mem _ h)
    · rintro (h | h)
      · exact Or.inl (Or.inr h)
      · rcases List.mem_cons.mp h with rfl | h'
        · exact Or.inl (Or.inl rfl)
        · exact Or.inr h'

/-- Python string `<` on code points (shorter prefix sorts first), driving
`sorted(list(all_parents))`. -/
def pyStrLt : List Char → List Char → Bool
  | [], [] => false
  | [], _ :: _ => true
  | _ :: _, [] => false
  | a :: xs, b :: ys =>
    if a.toNat < b.toNat then true
    else if b.toNat < a.toNat then false
    else pyStrLt xs ys

theorem pyStrLt_asymm :
    ∀ x y, pyStrLt x y = true → pyStrLt y x = false := by
  intro x
  induction x with
  | nil =>
    intro y _
    match y with
    | [] => rfl
    | _ :: _ => rfl
  | cons a xs ih =>
    intro y h
    match y with
    | [] => exact absurd h (by rw [pyStrLt]; exact Bool.false_ne_true)
    | b :: ys =>
      rw [pyStrLt] at h ⊢
      by_cases hab : a.toNat < b.toNat
      · rw [if_neg (by omega), if_pos hab]
      · rw [if_neg hab] at h
        by_cases hba : b.toNat < a.toNat
        · rw [if_pos hba] at h; exact absurd h Bool.false_ne_true
        · rw [if_neg hba] at h
          rw [if_neg hba, if_neg hab]
          exact ih ys h

theorem pyStrLe_trans :
    ∀ x y z, pyStrLt y x = false → pyStrLt z y = false → pyStrLt z x = false := by
  intro x
  induction x with
  | nil =>
    intro y z _ _
    match z with
    | [] => rfl
    | _ :: _ => rfl
  | cons a xs ih =>
    intro y z h1 h2
    match y with
    | [] => exact absurd h1 (by rw [pyStrLt]; simp)
    | b :: ys =>
      match z with
      | [] => exact absurd h2 (by rw [pyStrLt]; simp)
      | c :: zs =>
        rw [pyStrLt] at h1 h2 ⊢
        by_cases hba : b.toNat < a.toNat
        · rw [if_pos hba] at h1; simp at h1
        · rw [if_neg hba] at h1
          by_cases hcb : c.toNat < b.toNat
          · rw [if_pos hcb] at h2; simp at h2
          · rw [if_neg hcb] at h2
            have hca : ¬ c.toNat < a.toNat := by omega
            rw [if_neg hca]
            by_cases hac : a.toNat < c.toNat
            · rw [if_pos hac]
            · rw [if_neg hac]
              have hab : ¬ a.toNat < b.toNat := by omega
              have hbc : ¬ b.toNat < c.toNat := by omega
              rw [if_neg hab] at h1
              rw [if_neg hbc] at h2
              exact ih ys zs h1 h2

def insertStr (x : List Char) : List (List Char) → List (List Char)
  | [] => [x]
  | y :: ys => if pyStrLt y x then y :: insertStr x ys else x :: y :: ys

def sortStrs (l : List (List Char)) : List (List Char) := l.foldr insertStr []

theorem mem_insertStr (x z : List Char) :
    ∀ l, z ∈ insertStr x l ↔ z = x ∨ z ∈ l := by
  intro l
  induction l with
  | nil => simp [insertStr]
  | cons y ys ih =>
    rw [insertStr]
    by_cases h : pyStrLt y x
    · rw [if_pos h]
      simp only [List.mem_cons, ih]
      tauto
    · rw [if_neg h]
      simp only [List.mem_cons]

theorem mem_sortStrs (z : List Char) :
    ∀ l, z ∈ sortStrs l ↔ z ∈ l := by
  intro l
  induction l with
  | nil => simp [sortStrs]
  | cons y ys ih =>
    rw [sortStrs, List.foldr_cons]
    rw [show ys.foldr insertStr [] = sortStrs ys from rfl]
    rw [mem_insertStr, ih, List.mem_cons]

theorem sorted_insertStr (x : List Char) :
    ∀ l, l.Pairwise (fun a b => pyStrLt b a = false) →
      (insertStr x l).Pairwise (fun a b => pyStrLt b a = false) := by
  intro l
  induction l with
  | nil => intro _; exact List.pairwise_singleton _ _
  | cons y ys ih =>
    intro hp
    rcases List.pairwise_cons.mp hp with ⟨hy, hys⟩
    rw [insertStr]
    by_cases h : pyStrLt y x
    · rw [if_pos h]
      refine List.pairwise_cons.mpr ⟨?_, ih hys⟩
      intro z hz
      rcases (mem_insertStr x z ys).mp hz with rfl | hzys
      · exact pyStrLt_asymm y z h
      · exact hy z hzys
    · rw [if_neg h]
      refine List.pairwise_cons.mpr ⟨?_, hp⟩
      intro z hz
      rcases List.mem_cons.mp hz with rfl | hzys
      · exact Bool.of_not_eq_true h
      · exact pyStrLe_trans x y z (Bool.of_not_eq_true h) (hy z hzys)

theorem sorted_sortStrs :
    ∀ l, (sortStrs l).Pairwise (fun a b => pyStrLt b a = false) := by
  intro l
  induction l with
  | nil => exact List.Pairwise.nil
  | cons y ys ih =>
    rw [sortStrs, List.foldr_cons]
    exact sorted_insertStr y _ ih

/-- The loaded `RYMGenreHierarchy` object as its consumers see it: the
known-genre set `all_genres`, the ancestor-path map `genre_to_parents`
(total with default `[]`, matching `get_all_parent_genres`'s missing-key
branch), and `excluded_genres`. -/
structure RYMHierarchy where
  all : List (List Char)
  gtp : List Char → List (List (List Char))
  excluded : List (List Char)

/-- `get_all_parent_genres`: the union of all names in all stored ancestor
paths of the genre (empty when the genre has no entry). -/
def getAllParentGenres (h : RYMHierarchy) (g : List Char) : List (List Char) :=
  (h.gtp g).foldl (fun acc path => path.foldl (fun a y => setInsert y a) acc) []

theorem mem_getAllParentGenres (h : RYMHierarchy) (g x : List Char) :
    x ∈ getAllParentGenres h g ↔ ∃ p ∈ h.gtp g, x ∈ p := by
  rw [getAllParentGenres]
  have main : ∀ (paths : List (List (List Char))) (acc : List (List Char)),
      x ∈ paths.foldl (fun acc path => path.foldl (fun a y => setInsert y a) acc) acc ↔
        x ∈ acc ∨ ∃ p ∈ paths, x ∈ p := by
    intro paths
    induction paths with
    | nil => intro acc; simp
    | cons p ps ih =>
      intro acc
      rw [List.foldl_cons, ih, mem_foldl_setInsert]
      simp only [List.mem_cons]
      constructor
      · rintro ((h1 | h1) | ⟨q, hq, hx⟩)
        · exact Or.inl h1
        · exact Or.inr ⟨p, Or.inl rfl, h1⟩
        · exact Or.inr ⟨q, Or.inr hq, hx⟩
      · rintro (h1 | ⟨q, (rfl | hq), hx⟩)
        · exact Or.inl (Or.inl h1)
        · exact Or.inl (Or.inr hx)
        · exact Or.inr ⟨q, hq, hx⟩
  rw [main]
  simp

/-- `expand_genres_hierarchically`: a known genre contributes itself (unless
excluded) and its non-excluded parents; an unknown genre is passed through
as-is unless excluded. -/
def expandGenresHierarchically (h : RYMHierarchy) (genres : List (List Char)) :
    List (List Char) :=
  genres.foldl (fun expanded genre =>
    if genre ∈ h.all then
      let e1 := if genre ∈ h.excluded then expanded else setInsert genre expanded
      (getAllParentGenres h genre).foldl
        (fun a p => if p ∈ h.excluded then a else setInsert p a) e1
    else
      if genre ∈ h.excluded then expanded else setInsert genre expanded) []

theorem mem_foldl_guardInsert (excl : List (List Char)) (l : List (List Char)) :
    ∀ (acc : List (List Char)) (x : List Char),
      x ∈ l.foldl (fun a p => if p ∈ excl then a else setInsert p a) acc ↔
        x ∈ acc ∨ (x ∈ l ∧ x ∉ excl) := by
  induction l with
  | nil => intro acc x; simp
  | cons p ps ih =>
    intro acc x
    rw [List.foldl_cons]
    by_cases hp : p ∈ excl
    · rw [if_pos hp, ih]
      simp only [List.mem_cons]
      constructor
      · rintro (h1 | ⟨h1, h2⟩)
        · exact Or.inl h1
        · exact Or.inr ⟨Or.inr h1, h2⟩
      · rintro (h1 | ⟨(rfl | h1), h2⟩)
        · exact Or.inl h1
        · exact absurd hp h2
        · exact Or.inr ⟨h1, h2⟩
    · rw [if_neg hp, ih, mem_setInsert]
      simp only [List.mem_cons]
      constructor
      · rintro ((rfl | h1) | ⟨h1, h2⟩)
        · exact Or.inr ⟨Or.inl rfl, hp⟩
        · exact Or.inl h1
        · exact Or.inr ⟨Or.inr h1, h2⟩
      · rintro (h1 | ⟨(rfl | h1), h2⟩)
        · exact Or.inl (Or.inr h1)
        · exact Or.inl (Or.inl rfl)
        · exact Or.inr ⟨h1, h2⟩

/-- Characterization of one step of `expand_genres_hierarchically` on a
singleton input. -/
theorem mem_expand_singleton (h : RYMHierarchy) (g x : List Char) :
    x ∈ expandGenresHierarchically h [g] ↔
      (x = g ∧ g ∉ h.excluded) ∨
      (g ∈ h.all ∧ x ∈ getAllParentGenres h g ∧ x ∉ h.excluded) := by
  rw [expandGenresHierarchically, List.foldl_cons, List.foldl_nil]
  by_cases hall : g ∈ h.all
  · rw [if_pos hall]
    simp only
    rw [mem_foldl_guardInsert]
    by_cases hexcl : g ∈ h.excluded
    · rw [if_pos hexcl]
      simp only [List.not_mem_nil, false_or]
      constructor
      · rintro ⟨h1, h2⟩
        exact Or.inr ⟨hall, h1, h2⟩
      · rintro (⟨rfl, h2⟩ | ⟨_, h1, h2⟩)
        · exact absurd hexcl h2
        · exact ⟨h1, h2⟩
    · rw [if_neg hexcl, mem_setInsert]
      simp only [List.not_mem_nil, or_false]
      constructor
      · rintro (rfl | ⟨h1, h2⟩)
        · exact Or.inl ⟨rfl, hexcl⟩
        · exact Or.inr ⟨hall, h1, h2⟩
      · rintro (⟨rfl, _⟩ | ⟨_, h1, h2⟩)
        · exact Or.inl rfl
        · exact Or.inr ⟨h1, h2⟩
  · rw [if_neg hall]
    by_cases hexcl : g ∈ h.excluded
    · rw [if_pos hexcl]
      simp only [List.not_mem_nil, false_iff]
      rintro (⟨rfl, h2⟩ | ⟨h1, _, _⟩)
      · exact absurd hexcl h2
      · exact absurd h1 hall
    · rw [if_neg hexcl, mem_setInsert]
      simp only [List.not_mem_nil, or_false]
      constructor
      · rintro rfl
        exact Or.inl ⟨rfl, hexcl⟩
      · rintro (⟨rfl, _⟩ | ⟨h1, _, _⟩)
        · rfl
        · exact absurd h1 hall

/-- C7: for a genre known to the index, hierarchical expansion of the
singleton list contains every non-excluded name on every stored ancestor
path; any genre (known or unknown) is in its own expansion iff it is not
excluded; the expansion never contains an excluded name; and an unknown
genre is passed through as-is exactly when not excluded. -/
theorem c7_expand_covers_ancestors (h : RYMHierarchy) (g : List Char) :
    (g ∈ h.all → ∀ p ∈ h.gtp g, ∀ x ∈ p, x ∉ h.excluded →
        x ∈ expandGenresHierarchically h [g]) ∧
    (g ∈ expandGenresHierarchically h [g] ↔ g ∉ h.excluded) ∧
    (∀ x ∈ expandGenresHierarchically h [g], x ∉ h.excluded) ∧
    (g ∉ h.all → expandGenresHierarchically h [g] =
      if g ∈ h.excluded then [] else [g]) := by
  refine ⟨?_, ⟨?_, ?_⟩, ?_, ?_⟩
  · intro hall p hp x hx hxe
    exact (mem_expand_singleton h g x).mpr
      (Or.inr ⟨hall, (mem_getAllParentGenres h g x).mpr ⟨p, hp, hx⟩, hxe⟩)
  · intro hg
    rcases (mem_expand_singleton h g g).mp hg with ⟨_, he⟩ | ⟨_, _, he⟩
    · exact he
    · exact he
  · intro he
    exact (mem_expand_singleton h g g).mpr (Or.inl ⟨rfl, he⟩)
  · intro x hx
    rcases (mem_expand_singleton h g x).mp hx with ⟨rfl, he⟩ | ⟨_, _, he⟩
    · exact he
    · exact he
  · intro hall
    rw [expandGenresHierarchically, List.foldl_cons, List.foldl_nil, if_neg hall]
    by_cases he : g ∈ h.excluded
    · rw [if_pos he, if_pos he]
    · rw [if_neg he, if_neg he, setInsert, if_neg (List.not_mem_nil g)]

def hierW7 : RYMHierarchy :=
  ⟨[['g']], fun n => if n = ['g'] then [[['p']]] else [], []⟩

theorem c7_expand_covers_ancestors_witness :
    ['p'] ∈ expandGenresHierarchically hierW7 [['g']] :=
  (c7_expand_covers_ancestors hierW7 ['g']).1 (by decide) [['p']] (by decide)
    ['p'] (by decide) (by decide)

/-- A taxonomy document whose first node parses (registering genre `A`)
and whose second node then raises `KeyError('name')` mid-parse. -/
def c3PartialDoc : PyJson :=
  .obj [("genreHierarchy".toList,
    .arr [.obj [("name".toList, .str "A".toList)], .obj []])]

/-- C3 counterexample: a document that fails partway through tree parsing
does NOT produce an empty index — the genre registered before the failure
is retained, refuting the universally quantified claim. -/
theorem c3_counterexample :
    ¬ ((loadHierarchy (.doc c3PartialDoc)).all = []) ∧
    (loadHierarchy (.doc c3PartialDoc)).all = ["A".toList] := by
  constructor
  · decide
  · decide

/-- C3 (amended): a missing file, malformed JSON, or a document without the
root key produce an empty index and never raise (`loadHierarchy` is total),
but a document failing partway through parsing retains the partial state. -/
theorem c3_amended_failure_semantics :
    ((loadHierarchy .missingFile).all = [] ∧
      ∀ g, (loadHierarchy .missingFile).gtp g = []) ∧
    ((loadHierarchy .malformedJson).all = [] ∧
      ∀ g, (loadHierarchy .malformedJson).gtp g = []) ∧
    (∀ fields,
      jlookup ['g', 'e', 'n', 'r', 'e', 'H', 'i', 'e', 'r', 'a', 'r', 'c', 'h', 'y']
        fields = none →
      (loadHierarchy (.doc (.obj fields))).all = []) ∧
    (loadHierarchy (.doc c3PartialDoc)).all ≠ [] := by
  refine ⟨⟨rfl, fun g => rfl⟩, ⟨rfl, fun g => rfl⟩, ?_, by decide⟩
  intro fields h
  simp [loadHierarchy, h, emptyHState]

theorem c3_amended_witness :
    (loadHierarchy (.doc (.obj []))).all = [] :=
  c3_amended_failure_semantics.2.2.1 [] rfl

/-- One iteration of the accumulation loop of `_get_parent_genres`: a genre
with parents contributes them to `all_parents`; one without goes to
`top_level_genres`. -/
def parentStep (H : RYMHierarchy) (acc : List (List Char) × List (List Char))
    (g : List Char) : List (List Char) × List (List Char) :=
  let parents := getAllParentGenres H g
  if parents = [] then (acc.1, setInsert g acc.2)
  else (parents.foldl (fun a y => setInsert y a) acc.1, acc.2)

def parentsAccum (H : RYMHierarchy) (genres : List (List Char)) :
    List (List Char) × List (List Char) :=
  genres.foldl (parentStep H) ([], [])

/-- The sorted, untruncated grouping list of `_get_parent_genres`:
accumulate, subtract the input genres from `all_parents`, re-add the
top-level genres, subtract the exclusion set, and sort. -/
def parentListFull (H : RYMHierarchy) (genres : List (List Char)) :
    List (List Char) :=
  let acc := parentsAccum H genres
  let ap1 := acc.1.filter (fun x => decide (x ∉ genres))
  let ap2 := acc.2.foldl (fun a y => setInsert y a) ap1
  let ap3 := ap2.filter (fun x => decide (x ∉ H.excluded))
  sortStrs ap3

/-- `_get_parent_genres`: guard on the config flag, the empty input, and the
unloaded hierarchy, then truncate the sorted list only when
`max_groupings > 0`. -/
def getParentGenres (useHierarchy : Bool) (hier : Option RYMHierarchy)
    (maxGroupings : Int) (genres : List (List Char)) : List (List Char) :=
  if useHierarchy = false ∨ genres = [] then []
  else
    match hier with
    | none => []
    | some H =>
      let pl := parentListFull H genres
      if maxGroupings > 0 then pl.take maxGroupings.toNat else pl

theorem parentsAccum_top_chars (H : RYMHierarchy) :
    ∀ (genres : List (List Char)) (acc : List (List Char) × List (List Char))
      (x : List Char),
      x ∈ (genres.foldl (parentStep H) acc).2 →
      x ∈ acc.2 ∨ (x ∈ genres ∧ getAllParentGenres H x = []) := by
  intro genres
  induction genres with
  | nil => intro acc x h; exact Or.inl h
  | cons g gs ih =>
    intro acc x h
    rw [List.foldl_cons] at h
    rcases ih _ x h with hacc | ⟨hmem, hpar⟩
    · simp only [parentStep] at hacc
      by_cases hp : getAllParentGenres H g = []
      · rw [if_pos hp] at hacc
        rcases (mem_setInsert g x acc.2).mp hacc with rfl | hacc'
        · exact Or.inr ⟨List.mem_cons_self _ _, hp⟩
        · exact Or.inl hacc'
      · rw [if_neg hp] at hacc
        exact Or.inl hacc
    · exact Or.inr ⟨List.mem_cons_of_mem _ hmem, hpar⟩

theorem parentsAccum_top_mono (H : RYMHierarchy) :
    ∀ (genres : List (List Char)) (acc : List (List Char) × List (List Char))
      (x : List Char),
      x ∈ acc.2 → x ∈ (genres.foldl (parentStep H) acc).2 := by
  intro genres
  induction genres with
  | nil => intro acc x h; exact h
  | cons g gs ih =>
    intro acc x h
    rw [List.foldl_cons]
    refine ih _ x ?_
    simp only [parentStep]
    by_cases hp : getAllParentGenres H g = []
    · rw [if_pos hp]
      exact (mem_setInsert g x acc.2).mpr (Or.inr h)
    · rw [if_neg hp]
      exact h

theorem parentsAccum_top_complete (H : RYMHierarchy) :
    ∀ (genres : List (List Char)) (acc : List (List Char) × List (List Char))
      (g : List Char),
      g ∈ genres → getAllParentGenres H g = [] →
      g ∈ (genres.foldl (parentStep H) acc).2 := by
  intro genres
  induction genres with
  | nil => intro acc g h; exact absurd h (List.not_mem_nil g)
  | cons y ys ih =>
    intro acc g hmem hpar
    rw [List.foldl_cons]
    rcases List.mem_cons.mp hmem with rfl | h'
    · refine parentsAccum_top_mono H ys _ g ?_
      simp only [parentStep]
      rw [if_pos hpar]
      exact (mem_setInsert g g acc.2).mpr (Or.inl rfl)
    · exact ih _ g h' hpar

theorem sorted_parentListFull (H : RYMHierarchy) (genres : List (List Char)) :
    (parentListFull H genres).Pairwise (fun a b => pyStrLt b a = false) := by
  simp only [parentListFull]
  exact sorted_sortStrs _

theorem mem_parentListFull (H : RYMHierarchy) (genres : List (List Char))
    (x : List Char) :
    x ∈ parentListFull H genres ↔
      (x ∈ (parentsAccum H genres).1 ∧ x ∉ genres ∨
        x ∈ (parentsAccum H genres).2) ∧ x ∉ H.excluded := by
  simp only [parentListFull]
  rw [mem_sortStrs, List.mem_filter, mem_foldl_setInsert, List.mem_filter]
  constructor
  · rintro ⟨(⟨h1, h2⟩ | h1), h3⟩
    · exact ⟨Or.inl ⟨h1, of_decide_eq_true h2⟩, of_decide_eq_true h3⟩
    · exact ⟨Or.inr h1, of_decide_eq_true h3⟩
  · rintro ⟨(⟨h1, h2⟩ | h1), h3⟩
    · exact ⟨Or.inl ⟨h1, decide_eq_true h2⟩, decide_eq_true h3⟩
    · exact ⟨Or.inr h1, decide_eq_true h3⟩

/-- C2 counterexample: with a trivial hierarchy the top-level input genre
`Rock` is re-added after the subtraction and appears verbatim in the
grouping output. -/
def hierTriv : RYMHierarchy := ⟨[], fun _ => [], []⟩

theorem c2_counterexample :
    getParentGenres true (some hierTriv) 30 ["Rock".toList] = ["Rock".toList] ∧
    "Rock".toList ∈ ["Rock".toList] := by
  constructor
  · decide
  · decide

/-- C2 (amended): an input genre that HAS parents never appears in the
grouping output — the verbatim-removal step only precedes the top-level
re-add, so parentless input genres do come back. -/
theorem c2_amended_input_with_parents_removed (useH : Bool) (H : RYMHierarchy)
    (mg : Int) (genres : List (List Char)) (g : List Char)
    (hg : g ∈ genres) (hpar : getAllParentGenres H g ≠ []) :
    g ∉ getParentGenres useH (some H) mg genres := by
  intro hmem
  simp only [getParentGenres] at hmem
  by_cases hguard : useH = false ∨ genres = []
  · rw [if_pos hguard] at hmem
    exact absurd hmem (List.not_mem_nil g)
  · rw [if_neg hguard] at hmem
    have hpl : g ∈ parentListFull H genres := by
      by_cases hmg : mg > 0
      · rw [if_pos hmg] at hmem
        exact (List.take_sublist _ _).mem hmem
      · rw [if_neg hmg] at hmem
        exact hmem
    rcases (mem_parentListFull H genres g).mp hpl with ⟨⟨_, h2⟩ | h1, _⟩
    · exact absurd hg h2
    · rcases parentsAccum_top_chars H genres ([], []) g h1 with h | ⟨_, h⟩
      · exact absurd h (List.not_mem_nil g)
      · exact absurd h hpar

theorem c2_amended_witness :
    ¬ ['g'] ∈ getParentGenres true (some hierW7) 30 [['g'], "Rock".toList] :=
  fun hmem =>
    c2_amended_input_with_parents_removed true hierW7 30
      [['g'], "Rock".toList] ['g'] (by decide) (by decide) hmem

/-- C4 counterexample: with `max_groupings = 0` the list is returned
untruncated — here of length 1, violating the claimed `list ≤ maxGroupings`
bound for non-positive maxima. -/
theorem c4_counterexample :
    getParentGenres true (some hierTriv) 0 ["Pop".toList] = ["Pop".toList] ∧
    ¬ ((getParentGenres true (some hierTriv) 0 ["Pop".toList]).length ≤
        Int.toNat 0) := by
  constructor
  · decide
  · decide

theorem getParentGenres_none (useH : Bool) (mg : Int) (genres : List (List Char)) :
    getParentGenres useH none mg genres = [] := by
  simp only [getParentGenres]
  split
  · rfl
  · rfl

theorem getParentGenres_guard (useH : Bool) (hier : Option RYMHierarchy)
    (mg : Int) (genres : List (List Char)) (h : useH = false ∨ genres = []) :
    getParentGenres useH hier mg genres = [] := by
  simp only [getParentGenres]
  rw [if_pos h]

theorem getParentGenres_some (useH : Bool) (H : RYMHierarchy) (mg : Int)
    (genres : List (List Char)) (h : ¬ (useH = false ∨ genres = [])) :
    getParentGenres useH (some H) mg genres =
      if mg > 0 then (parentListFull H genres).take mg.toNat
      else parentListFull H genres := by
  simp only [getParentGenres]
  rw [if_neg h]

/-- C4 (amended): the grouping output is always sorted lexicographically,
and its length is bounded by `max_groupings` only when that maximum is
positive — zero or negative maxima return the full list. -/
theorem c4_amended_sorted_bounded (useH : Bool) (hier : Option RYMHierarchy)
    (mg : Int) (genres : List (List Char)) :
    (getParentGenres useH hier mg genres).Pairwise
      (fun a b => pyStrLt b a = false) ∧
    (0 < mg → (getParentGenres useH hier mg genres).length ≤ mg.toNat) ∧
    (¬ 0 < mg → ∀ H, hier = some H → ¬ (useH = false ∨ genres = []) →
      getParentGenres useH hier mg genres = parentListFull H genres) := by
  by_cases hguard : useH = false ∨ genres = []
  · rw [getParentGenres_guard useH hier mg genres hguard]
    exact ⟨List.Pairwise.nil, fun _ => Nat.zero_le _, fun _ _ _ h => absurd hguard h⟩
  · match hier with
    | none =>
      rw [getParentGenres_none]
      exact ⟨List.Pairwise.nil, fun _ => Nat.zero_le _, fun _ H h => by cases h⟩
    | some H =>
      rw [getParentGenres_some useH H mg genres hguard]
      by_cases hmg : mg > 0
      · rw [if_pos hmg]
        refine ⟨?_, fun _ => ?_, fun h => absurd hmg h⟩
        · exact List.Pairwise.sublist (List.take_sublist _ _)
            (sorted_parentListFull H genres)
        · rw [List.length_take]
          exact min_le_left _ _
      · rw [if_neg hmg]
        refine ⟨sorted_parentListFull H genres, fun h => absurd h hmg, ?_⟩
        intro _ H' hH' _
        cases hH'
        rfl

theorem c4_amended_witness :
    (getParentGenres true (some hierTriv) 2 ["Blues".toList]).length ≤
      Int.toNat 2 :=
  (c4_amended_sorted_bounded true (some hierTriv) 2 ["Blues".toList]).2.1
    (by decide)

/-- C10: an input genre with no stored ancestor paths is re-added as a
top-level genre: if it is not excluded it appears in the full sorted
grouping list, verbatim in the output when `max_groupings` is non-positive,
and in the output iff it survives the truncation when positive. -/
theorem c10_parentless_passthrough (H : RYMHierarchy)
    (genres : List (List Char)) (g : List Char) (mg : Int)
    (hg : g ∈ genres) (hnop : getAllParentGenres H g = [])
    (hexcl : g ∉ H.excluded) :
    g ∈ parentListFull H genres ∧
    (mg ≤ 0 → g ∈ getParentGenres true (some H) mg genres) ∧
    (0 < mg → (g ∈ getParentGenres true (some H) mg genres ↔
      g ∈ (parentListFull H genres).take mg.toNat)) := by
  have hguard : ¬ (true = false ∨ genres = []) := by
    rintro (h | h)
    · exact Bool.true_eq_false.mp h
    · exact List.not_mem_nil g (h ▸ hg)
  have hpl : g ∈ parentListFull H genres := by
    refine (mem_parentListFull H genres g).mpr ⟨Or.inr ?_, hexcl⟩
    exact parentsAccum_top_complete H genres ([], []) g hg hnop
  refine ⟨hpl, ?_, ?_⟩
  · intro hmg
    rw [getParentGenres_some true H mg genres hguard,
      if_neg (by omega : ¬ mg > 0)]
    exact hpl
  · intro hmg
    rw [getParentGenres_some true H mg genres hguard, if_pos hmg]

theorem c10_parentless_passthrough_witness :
    "Jazz".toList ∈ getParentGenres true (some hierTriv) (-1)
      ["Jazz".toList] :=
  (c10_parentless_passthrough hierTriv ["Jazz".toList] "Jazz".toList (-1)
    (by decide) (by decide) (by decide)).2.1 (by decide)

/-- A two-level taxonomy document: genre `E` with child `A`. -/
def c8Doc : PyJson :=
  .obj [("genreHierarchy".toList,
    .arr [.obj [("name".toList, .str "E".toList),
                ("children".toList,
                  .arr [.obj [("name".toList, .str "A".toList)]])]])]

theorem c8_paths_are_registered_witness :
    "E".toList ∈ (loadHierarchy (.doc c8Doc)).all :=
  c8_paths_are_registered (.doc c8Doc) "A".toList ["E".toList] "E".toList
    (by decide) (by decide)

theorem c9_variations_clean_witness :
    pyStrip "ab".toList = "ab".toList ∧ pyStrip "ab".toList ≠ [] :=
  (c9_variations_clean "ab".toList).1.1 "ab".toList (by decide)
